import Mathlib

/-!
Verification of the smart-subtitle-reader segmentation-and-alignment engine.

Strings are modelled as `List Char` (one entry per Unicode scalar value; all
characters the engine treats specially are in the basic plane, where JS code
units and scalars coincide).  The width oracle (`canvas.measureText`) is an
abstract parameter `measure : List Char → Nat`, and the Unicode
general-category class `\p{L}\p{N}\p{P}\p{Z}(\p{M})` used by the sanitizers is
an abstract parameter `keep : Char → Bool`; concrete sample instances used in
witnesses are given below and agree with the Unicode tables on every character
they are applied to.
-/

namespace SmartSub

/-- Character set of the JavaScript regex class `\s` (WhiteSpace and line
terminators), also the set removed by `String.prototype.trim`. -/
def isWs (c : Char) : Bool :=
  c = ' ' ∨ c = '\t' ∨ c = '\n' ∨ c.toNat = 0x0b ∨ c.toNat = 0x0c ∨ c = '\r' ∨
  c.toNat = 0xa0 ∨ c.toNat = 0x1680 ∨ (0x2000 ≤ c.toNat ∧ c.toNat ≤ 0x200a) ∨
  c.toNat = 0x2028 ∨ c.toNat = 0x2029 ∨ c.toNat = 0x202f ∨ c.toNat = 0x205f ∨
  c.toNat = 0x3000 ∨ c.toNat = 0xfeff

/-- Sentence-ending marks of the segmenter's sentence tier, the regex class
`[。！？!?]` of `smartSplitText`. -/
def isSentEnd (c : Char) : Bool :=
  c = '。' ∨ c = '！' ∨ c = '？' ∨ c = '!' ∨ c = '?'

/-- Clause-separating marks of the segmenter's clause tier, the regex class
`[，、；,.;]` of `splitByPunctuation`. -/
def isClauseSep (c : Char) : Bool :=
  c = '，' ∨ c = '、' ∨ c = '；' ∨ c = ',' ∨ c = '.' ∨ c = ';'

/-- Emoji ranges removed by `SmartSubtitle.cleanText`
(`\u{1F300}-\u{1F5FF} … \u{2600}-\u{26FF}\u{2700}-\u{27BF}`). -/
def isEmojiSmart (c : Char) : Bool :=
  (0x1F300 ≤ c.toNat ∧ c.toNat ≤ 0x1F5FF) ∨
  (0x1F600 ≤ c.toNat ∧ c.toNat ≤ 0x1F64F) ∨
  (0x1F680 ≤ c.toNat ∧ c.toNat ≤ 0x1F6FF) ∨
  (0x1F700 ≤ c.toNat ∧ c.toNat ≤ 0x1F77F) ∨
  (0x1F780 ≤ c.toNat ∧ c.toNat ≤ 0x1F7FF) ∨
  (0x1F800 ≤ c.toNat ∧ c.toNat ≤ 0x1F8FF) ∨
  (0x1F900 ≤ c.toNat ∧ c.toNat ≤ 0x1F9FF) ∨
  (0x1FA00 ≤ c.toNat ∧ c.toNat ≤ 0x1FA6F) ∨
  (0x1FA70 ≤ c.toNat ∧ c.toNat ≤ 0x1FAFF) ∨
  (0x2600 ≤ c.toNat ∧ c.toNat ≤ 0x26FF) ∨
  (0x2700 ≤ c.toNat ∧ c.toNat ≤ 0x27BF)

/-- Emoji/symbol ranges removed by `SubtitleReader.filterTextKeepLength` and
`filterTextComplete` (`[\u{1F000}-\u{1FFFF}\u{2600}-\u{27BF}\u{2B50}\u{2B55}]`). -/
def isEmojiK (c : Char) : Bool :=
  (0x1F000 ≤ c.toNat ∧ c.toNat ≤ 0x1FFFF) ∨
  (0x2600 ≤ c.toNat ∧ c.toNat ≤ 0x27BF) ∨
  c = '⭐' ∨ c = '⭕'

/-- One segmentation output unit `{text, start, end}` (the JS field `end` is
called `stop` here because `end` is a Lean keyword). -/
structure SegUnit where
  text : List Char
  start : Nat
  stop : Nat
deriving DecidableEq, Repr

/-- Concatenation of the texts of a list of units. -/
def joinTexts (us : List SegUnit) : List Char :=
  (us.map (·.text)).flatten

/-- Scanner for `matchAll` of the sentence regex `[^。！？!?]+[。！？!?]` :
`acc` is the run of non-terminator characters collected so far, `rs` its start
index, `pos` the index of the head of the remaining input.  A run that reaches
the end of the input without a terminator matches nothing (the `+` needs the
terminator that follows); a terminator with no pending run cannot start a
match and is skipped. -/
def sentGo : List Char → List Char → Nat → Nat → List (Nat × List Char)
  | [], _, _, _ => []
  | c :: rest, acc, rs, pos =>
    if isSentEnd c then
      if acc.isEmpty then sentGo rest [] (pos + 1) (pos + 1)
      else (rs, acc ++ [c]) :: sentGo rest [] (pos + 1) (pos + 1)
    else sentGo rest (acc ++ [c]) (if acc.isEmpty then pos else rs) (pos + 1)

/-- All matches `(index, match)` of the sentence regex on `t`. -/
def sentMatches (t : List Char) : List (Nat × List Char) :=
  sentGo t [] 0 0

/-- Scanner for `matchAll` of the clause regex `[^，、；,.;]+[，、；,.;]?` :
like `sentGo`, except the terminating punctuation is optional, so a pending
run that reaches the end of the input is itself a match. -/
def clauseGo : List Char → List Char → Nat → Nat → List (Nat × List Char)
  | [], acc, rs, _ => if acc.isEmpty then [] else [(rs, acc)]
  | c :: rest, acc, rs, pos =>
    if isClauseSep c then
      if acc.isEmpty then clauseGo rest [] (pos + 1) (pos + 1)
      else (rs, acc ++ [c]) :: clauseGo rest [] (pos + 1) (pos + 1)
    else clauseGo rest (acc ++ [c]) (if acc.isEmpty then pos else rs) (pos + 1)

/-- All matches `(index, match)` of the clause regex on `t`. -/
def clauseMatches (t : List Char) : List (Nat × List Char) :=
  clauseGo t [] 0 0

/-- Value of the JS loop variable `currentPos` after iterating over the
matches: the end index of the last match, `0` if there is none. -/
def lastEndRel (ms : List (Nat × List Char)) : Nat :=
  match ms.getLast? with
  | none => 0
  | some (s, m) => s + m.length

/-- Model of `String.prototype.trim`. -/
def jsTrim (l : List Char) : List Char :=
  ((l.dropWhile isWs).reverse.dropWhile isWs).reverse

/-- Scanner state of `forceSplitText`: `cur` is `currentText`, `curStart` is
`startPos`, `pos` the index of the head of the remaining input.  The JS
back-off (`currentText.slice(0,-1)` together with `i--`) is modelled by
emitting the accumulated text and immediately re-examining the dropped
character with an empty accumulator, which is exactly what the next loop
iteration of the source does. -/
def forceSplitGo (measure : List Char → Nat) (maxW : Nat) (basePos totalLen : Nat) :
    List Char → Nat → Nat → List Char → List SegUnit
  | cur, curStart, _, [] =>
    if cur.isEmpty then [] else [⟨cur, basePos + curStart, basePos + totalLen⟩]
  | cur, curStart, pos, c :: rest =>
    if measure (cur ++ [c]) ≤ maxW then
      forceSplitGo measure maxW basePos totalLen (cur ++ [c]) curStart (pos + 1) rest
    else if cur.isEmpty then
      ⟨[c], basePos + curStart, basePos + curStart + 1⟩ ::
        forceSplitGo measure maxW basePos totalLen [] (pos + 1) (pos + 1) rest
    else
      ⟨cur, basePos + curStart, basePos + curStart + cur.length⟩ ::
        (if measure [c] ≤ maxW then
          forceSplitGo measure maxW basePos totalLen [c] pos (pos + 1) rest
        else
          ⟨[c], basePos + pos, basePos + pos + 1⟩ ::
            forceSplitGo measure maxW basePos totalLen [] (pos + 1) (pos + 1) rest)

/-- Model of `forceSplitText(text, basePosition)`: greedy accumulation with
one-character back-off, the hard third tier of the segmenter. -/
def forceSplitText (measure : List Char → Nat) (maxW : Nat) (t : List Char)
    (basePos : Nat) : List SegUnit :=
  forceSplitGo measure maxW basePos t.length [] 0 0 t

/-- Model of `splitByPunctuation(text, basePosition)`: clause-tier split; a
clause over the width budget is handed to `forceSplitText`; text after the
last match is emitted (or split further) unless it is whitespace-only; with
no match at all the whole text is force-split. -/
def splitByPunctuation (measure : List Char → Nat) (maxW : Nat) (t : List Char)
    (basePos : Nat) : List SegUnit :=
  let ms := clauseMatches t
  if ms.isEmpty then forceSplitText measure maxW t basePos
  else
    let units := ms.flatMap (fun m =>
      if measure m.2 ≤ maxW then [⟨m.2, basePos + m.1, basePos + m.1 + m.2.length⟩]
      else forceSplitText measure maxW m.2 (basePos + m.1))
    units ++
      (if lastEndRel ms < t.length then
        let remaining := t.drop (lastEndRel ms)
        if (jsTrim remaining).isEmpty then []
        else if measure remaining ≤ maxW then
          [⟨remaining, basePos + lastEndRel ms, basePos + t.length⟩]
        else forceSplitText measure maxW remaining (basePos + lastEndRel ms)
      else [])

/-- Model of `smartSplitText(text)`: a short-enough text is one unit;
otherwise the sentence tier, falling back to the clause tier per over-budget
sentence and for the unmatched tail. -/
def smartSplitText (measure : List Char → Nat) (maxW : Nat) (t : List Char) :
    List SegUnit :=
  if measure t ≤ maxW then [⟨t, 0, t.length⟩]
  else
    let ms := sentMatches t
    if ms.isEmpty then splitByPunctuation measure maxW t 0
    else
      let units := ms.flatMap (fun m =>
        if measure m.2 ≤ maxW then [⟨m.2, m.1, m.1 + m.2.length⟩]
        else splitByPunctuation measure maxW m.2 m.1)
      units ++
        (if lastEndRel ms < t.length then
          let remaining := t.drop (lastEndRel ms)
          if (jsTrim remaining).isEmpty then []
          else if measure remaining ≤ maxW then
            [⟨remaining, lastEndRel ms, t.length⟩]
          else splitByPunctuation measure maxW remaining (lastEndRel ms)
        else [])

/-- Run-collapsing scanner for the replacement `\s+ → ' '`; the flag records
whether the current position is inside a whitespace run whose single `' '`
has already been emitted. -/
def collapseGo : Bool → List Char → List Char
  | _, [] => []
  | inRun, c :: rest =>
    if isWs c then
      if inRun then collapseGo true rest else ' ' :: collapseGo true rest
    else c :: collapseGo false rest

/-- Model of `.replace(/\s+/g, ' ')`. -/
def collapseWs (l : List Char) : List Char :=
  collapseGo false l

/-- Model of `SmartSubtitle.cleanText` with the default configuration (all
three cleaning flags on): delete emoji, delete characters outside
`\p{L}\p{N}\p{P}\p{Z}` (the abstract class `keep`), collapse whitespace. -/
def cleanText (keep : Char → Bool) (t : List Char) : List Char :=
  collapseWs ((t.filter (fun c => !isEmojiSmart c)).filter keep)

/-- Model of `hay.indexOf(needle, from)` on JS strings: `some i` is the least
occurrence index `≥ from`, `none` is JS's `-1`; an empty needle is found at
`min from hay.length`. -/
def idxGo (needle : List Char) : List Char → Nat → Option Nat
  | [], _ => none
  | c :: rest, p =>
    if needle.isPrefixOf (c :: rest) then some p else idxGo needle rest (p + 1)

/-- JS `indexOf` with a start position (see `idxGo`). -/
def idxOfFrom (hay needle : List Char) (start : Nat) : Option Nat :=
  if needle.isEmpty then some (min start hay.length)
  else idxGo needle (hay.drop start) start

/-- ASCII alphanumeric, the regex class `[a-zA-Z0-9]`. -/
def isAlnum (c : Char) : Bool :=
  c.isAlpha || c.isDigit

/-- Single-pattern global replacement, the core of JS
`String.prototype.replace(regex, …)` for the URL/e-mail patterns: `probe l`
returns the length of the (unique, greedy) match starting at the head of `l`,
if any; `probePos` records that a match is never empty, which is what makes
the scan terminate. -/
structure ReplMatcher where
  probe : List Char → Option Nat
  probePos : ∀ l n, probe l = some n → 0 < n

/-- Global replace scan: at each position try the matcher; on a match emit the
replacement and resume after the matched text, otherwise copy one character.
The recursion is driven by a fuel argument so that it is structural; since a
match always consumes at least one character (`probePos`), fuel equal to the
input length (as supplied by `replGo`) is never exhausted. -/
def replGoF (m : ReplMatcher) (repl : Nat → List Char) : Nat → List Char → List Char
  | _, [] => []
  | 0, l => l
  | fuel + 1, c :: rest =>
    match m.probe (c :: rest) with
    | some n => repl n ++ replGoF m repl fuel ((c :: rest).drop n)
    | none => c :: replGoF m repl fuel rest

/-- Model of `String.prototype.replace(pattern, …)` with a global regex (see
`replGoF`). -/
def replGo (m : ReplMatcher) (repl : Nat → List Char) (l : List Char) : List Char :=
  replGoF m repl l.length l

/-- Match of `https?:\/\/[^\s]+` at the head of `l` (the `s?` backtracking
collapses: an 8-character `https://` prefix is tried first). -/
def tryHttpAt (l : List Char) : Option Nat :=
  if l.take 8 = ['h', 't', 't', 'p', 's', ':', '/', '/'] then
    let run := (l.drop 8).takeWhile (fun c => !isWs c)
    if run.isEmpty then none else some (8 + run.length)
  else if l.take 7 = ['h', 't', 't', 'p', ':', '/', '/'] then
    let run := (l.drop 7).takeWhile (fun c => !isWs c)
    if run.isEmpty then none else some (7 + run.length)
  else none

/-- Match of `www\.[^\s]+` at the head of `l`. -/
def tryWwwAt (l : List Char) : Option Nat :=
  if l.take 4 = ['w', 'w', 'w', '.'] then
    let run := (l.drop 4).takeWhile (fun c => !isWs c)
    if run.isEmpty then none else some (4 + run.length)
  else none

/-- Match of `[a-zA-Z0-9][a-zA-Z0-9-]*\.[a-zA-Z]{2,}(\.[a-zA-Z]{2,})?[^\s]*`
at the head of `l`.  The character classes before each literal `.` cannot
contain `.`, so the greedy runs never backtrack. -/
def tryDomainAt (l : List Char) : Option Nat :=
  match l with
  | [] => none
  | c :: rest =>
    if isAlnum c then
      let run1 := rest.takeWhile (fun d => isAlnum d || d = '-')
      match rest.drop run1.length with
      | '.' :: tail1 =>
        let run2 := tail1.takeWhile Char.isAlpha
        if run2.length < 2 then none
        else
          let after2 := tail1.drop run2.length
          let optLen :=
            match after2 with
            | '.' :: tail2 =>
              let run3 := tail2.takeWhile Char.isAlpha
              if run3.length < 2 then 0 else 1 + run3.length
            | _ => 0
          let run4 := (after2.drop optLen).takeWhile (fun d => !isWs d)
          some (1 + run1.length + 1 + run2.length + optLen + run4.length)
      | _ => none
    else none

/-- Character class `[a-zA-Z0-9._%+-]` of the e-mail local part. -/
def isLocalChar (c : Char) : Bool :=
  isAlnum c || c = '.' || c = '_' || c = '%' || c = '+' || c = '-'

/-- Character class `[a-zA-Z0-9.-]` of the e-mail domain part. -/
def isDomChar (c : Char) : Bool :=
  isAlnum c || c = '.' || c = '-'

/-- Match of `[a-zA-Z0-9._%+-]+@[a-zA-Z0-9.-]+\.[a-zA-Z]{2,}` at the head of
`l`.  The domain-part `+` is greedy over a class containing `.`, so the
engine backtracks it from longest: the largest `k ≥ 1` such that the class
run has a `.` at offset `k` followed by at least two letters wins. -/
def tryEmailAt (l : List Char) : Option Nat :=
  let run0 := l.takeWhile isLocalChar
  if run0.isEmpty then none
  else
    match l.drop run0.length with
    | '@' :: tail =>
      let run2 := tail.takeWhile isDomChar
      match (List.range run2.length).reverse.filter (fun k =>
          1 ≤ k ∧ run2.getD k ' ' = '.' ∧
          2 ≤ ((run2.drop (k + 1)).takeWhile Char.isAlpha).length) with
      | [] => none
      | k :: _ =>
        some (run0.length + 1 + k + 1 +
          ((run2.drop (k + 1)).takeWhile Char.isAlpha).length)
    | _ => none

/-- The `https?://…` replacement pass. -/
def httpM : ReplMatcher :=
  ⟨tryHttpAt, fun l n h => by
    simp only [tryHttpAt] at h
    split at h
    · split at h
      · simp at h
      · simp only [Option.some.injEq] at h
        omega
    · split at h
      · split at h
        · simp at h
        · simp only [Option.some.injEq] at h
          omega
      · simp at h⟩

/-- The `www.…` replacement pass. -/
def wwwM : ReplMatcher :=
  ⟨tryWwwAt, fun l n h => by
    simp only [tryWwwAt] at h
    split at h
    · split at h
      · simp at h
      · simp only [Option.some.injEq] at h
        omega
    · simp at h⟩

/-- The bare-domain replacement pass. -/
def domainM : ReplMatcher :=
  ⟨tryDomainAt, fun l n h => by
    simp only [tryDomainAt] at h
    split at h
    · simp at h
    · split at h
      · split at h
        · split at h
          · simp at h
          · simp only [Option.some.injEq] at h
            omega
        · simp at h
      · simp at h⟩

/-- The e-mail replacement pass. -/
def emailM : ReplMatcher :=
  ⟨tryEmailAt, fun l n h => by
    simp only [tryEmailAt] at h
    split at h
    · simp at h
    · split at h
      · split at h
        · simp at h
        · simp only [Option.some.injEq] at h
          omega
      · simp at h⟩

/-- Replacement by an equal-length run of spaces (length-preserving mode). -/
def spacesOf (n : Nat) : List Char :=
  List.replicate n ' '

/-- Replacement by the empty string (complete-deletion mode). -/
def deleteOf (_ : Nat) : List Char :=
  []

/-- Model of `SubtitleReader.filterTextKeepLength`: the four link-like
patterns are replaced by equal-length space runs, then emoji and characters
outside `\p{L}\p{N}\p{P}\p{Z}\p{M}` (the abstract class `keep`) are deleted,
then whitespace runs are collapsed to single spaces. -/
def filterTextKeepLength (keep : Char → Bool) (t : List Char) : List Char :=
  collapseWs
    (((replGo emailM spacesOf
        (replGo domainM spacesOf
          (replGo wwwM spacesOf
            (replGo httpM spacesOf t)))).filter
        (fun c => !isEmojiK c)).filter (fun c => keep c))

/-- Model of `SubtitleReader.filterTextComplete`: like
`filterTextKeepLength` but the link-like matches are deleted outright and the
result is trimmed. -/
def filterTextComplete (keep : Char → Bool) (t : List Char) : List Char :=
  jsTrim (collapseWs
    (((replGo emailM deleteOf
        (replGo domainM deleteOf
          (replGo wwwM deleteOf
            (replGo httpM deleteOf t)))).filter
        (fun c => !isEmojiK c)).filter (fun c => keep c)))

/-- One display unit of the aligner's output (`{text, cleanedText, start, end}`
pushed by `processSubtitleText`). -/
structure DUnit where
  text : List Char
  cleanedText : List Char
  start : Nat
  stop : Nat
deriving DecidableEq, Repr

/-- Model of the JS loop `for (k = s; k < s + len; k++) map[k] = v`
(`List.set` out of range is a no-op; the aligner only writes inside the map). -/
def writeRange : List Int → Nat → Nat → Int → List Int
  | m, _, 0, _ => m
  | m, s, len + 1, v => writeRange (m.set s v) (s + 1) len v

/-- Mutable state of the alignment loop of `processSubtitleText`:
the `displayUnits` array, the `charToUnitMap` array and the line-level search
cursor `currentPos`. -/
structure AlignState where
  units : List DUnit
  map : List Int
  cursor : Nat
deriving DecidableEq, Repr

/-- Per-unit body of the inner loop of `processSubtitleText`: sanitize the
unit's text, locate it in the cleaned full text from the line's match
position, and on success fill the map cells with the unit's index and push
the unit. -/
def processUnitStep (keep : Char → Bool) (ct : List Char) (linePos : Nat)
    (st : AlignState) (u : SegUnit) : AlignState :=
  let cu := cleanText keep u.text
  match idxOfFrom ct cu linePos with
  | none => st
  | some p =>
    { units := st.units ++ [⟨u.text, cu, p, p + cu.length⟩],
      map := writeRange st.map p cu.length (st.units.length : Int),
      cursor := st.cursor }

/-- Per-line body of the outer loop of `processSubtitleText`: skip a missing
or empty cleaned line, search for the cleaned line from the cursor, on
success segment the original line, process its units, then advance the
cursor to the end of the line's match. -/
def processLineStep (measure : List Char → Nat) (maxW : Nat) (keep : Char → Bool)
    (ct : List Char) (st : AlignState) (pair : List Char × Option (List Char)) :
    AlignState :=
  match pair.2 with
  | none => st
  | some cl =>
    if cl.isEmpty then st
    else
      match idxOfFrom ct cl st.cursor with
      | none => st
      | some linePos =>
        let st' := (smartSplitText measure maxW pair.1).foldl
          (processUnitStep keep ct linePos) st
        { st' with cursor := linePos + cl.length }

/-- Fold of `processLineStep` over the (original line, indexed cleaned line)
pairs. -/
def alignGo (measure : List Char → Nat) (maxW : Nat) (keep : Char → Bool)
    (ct : List Char) : AlignState → List (List Char × Option (List Char)) → AlignState
  | st, [] => st
  | st, p :: rest => alignGo measure maxW keep ct (processLineStep measure maxW keep ct st p) rest

/-- Result record of `processSubtitleText` / `processText`. -/
structure AlignResult where
  displayUnits : List DUnit
  charToUnitMap : List Int
  cleanedText : List Char
deriving DecidableEq, Repr

/-- The indexed pairing `(mdLines[i], cleanedLines[i])` of the aligner's outer
loop; note that `cleanedLines` has been filtered, so after a line that cleans
to the empty string the two sides of a pair come from different lines, and
past its end the second component is `none` (JS `undefined`). -/
def linePairs (keep : Char → Bool) (mdLines : List (List Char)) :
    List (List Char × Option (List Char)) :=
  let cleanedLines := (mdLines.map (cleanText keep)).filter (fun l => !l.isEmpty)
  mdLines.enum.map (fun p => (p.2, cleanedLines[p.1]?))

/-- Model of `SmartSubtitle.processSubtitleText(rawText, mdHtml)` (default
configuration), with the extracted line list supplied as an argument: clean
the raw text, clean and filter the lines, then run the alignment loop with
the char-to-unit map initialised to the sentinel `-1`. -/
def processSubtitleText (measure : List Char → Nat) (maxW : Nat) (keep : Char → Bool)
    (rawText : List Char) (mdLines : List (List Char)) : AlignResult :=
  let ct := cleanText keep rawText
  let st := alignGo measure maxW keep ct
    ⟨[], List.replicate ct.length (-1), 0⟩ (linePairs keep mdLines)
  ⟨st.units, st.map, ct⟩

/-- JS array read `arr[i]` with a possibly negative index: out-of-range and
negative indices give `undefined` (`none`). -/
def jsIndex {α : Type _} (l : List α) (i : Int) : Option α :=
  if i < 0 then none else l[i.toNat]?

/-- Model of `SmartSubtitle.getCurrentUnit(charIndex, charToUnitMap,
displayUnits)`. -/
def getCurrentUnit (charIndex : Nat) (map : List Int) (units : List DUnit) :
    Option DUnit :=
  if h : charIndex < map.length then
    let ui := map[charIndex]
    if ui ≠ -1 ∧ ui < (units.length : Int) then jsIndex units ui else none
  else none

/-- Boundary-event kind `word`. -/
def wordKind : List Char := ['w', 'o', 'r', 'd']

/-- Boundary-event kind `sentence`. -/
def sentenceKind : List Char := ['s', 'e', 'n', 't', 'e', 'n', 'c', 'e']

/-- Model of the `utterance.onboundary` handler of `startReading`: given the
session's map and units, the current unit index and an event
`(name, charIndex)`, return the new current index and the emitted "show
unit" effect, if any. -/
def onBoundary (map : List Int) (units : List DUnit) (cur : Int)
    (name : List Char) (charIndex : Nat) : Int × Option DUnit :=
  if name ≠ wordKind ∧ name ≠ sentenceKind then (cur, none)
  else if h : charIndex < map.length then
    let ui := map[charIndex]
    if ui ≠ -1 ∧ ui ≠ cur then (ui, jsIndex units ui) else (cur, none)
  else (cur, none)

/-- Fold of `onBoundary` over a stream of progress events, collecting the
emitted effects in order. -/
def runBoundaries (map : List Int) (units : List DUnit) :
    Int → List (List Char × Nat) → Int × List DUnit
  | cur, [] => (cur, [])
  | cur, e :: rest =>
    let r := onBoundary map units cur e.1 e.2
    let rs := runBoundaries map units r.1 rest
    (rs.1, r.2.toList ++ rs.2)

/-- Join with a single separating space, the JS `array.join(' ')`. -/
def joinSpace (ls : List (List Char)) : List Char :=
  List.intercalate [' '] ls

/-- Mutable state of the alignment loop of the `part_000` variant
`SubtitleReader.processText`. -/
structure KState where
  units : List SegUnit
  map : List Int
  cursor : Nat
deriving DecidableEq, Repr

/-- Per-unit body of the inner loop of the `part_000` `processText`: every
unit of the line searches for the line's whole reading text from the cursor,
claims that span, and advances the cursor past it. -/
def kUnitStep (ct readingLine : List Char) (st : KState) (u : SegUnit) : KState :=
  match idxOfFrom ct readingLine st.cursor with
  | none => st
  | some p =>
    { units := st.units ++ [⟨u.text, p, p + readingLine.length⟩],
      map := writeRange st.map p readingLine.length (st.units.length : Int),
      cursor := p + readingLine.length }

/-- Per-line body of the outer loop of the `part_000` `processText`. -/
def kLineStep (measure : List Char → Nat) (maxW : Nat) (ct : List Char)
    (st : KState) (pair : List Char × List Char) : KState :=
  if pair.1.isEmpty then st
  else (smartSplitText measure maxW pair.1).foldl (kUnitStep ct pair.2) st

/-- Result record of the `part_000` `processText` (its units carry no
`cleanedText` field). -/
structure KResult where
  displayUnits : List SegUnit
  charToUnitMap : List Int
  cleanedText : List Char
deriving DecidableEq, Repr

/-- Model of the `part_000` `SubtitleReader.processText(text, mdHtml)` with
the extracted line list supplied as an argument: reading lines keep URL
positions as spaces, display lines drop them, the spoken form is the
space-join of the reading lines. -/
def processTextK (measure : List Char → Nat) (maxW : Nat) (keep : Char → Bool)
    (textLines : List (List Char)) : KResult :=
  let readingLines := textLines.map (filterTextKeepLength keep)
  let displayLines := textLines.map (filterTextComplete keep)
  let ct := joinSpace readingLines
  let st := (displayLines.zip readingLines).foldl
    (kLineStep measure maxW ct) ⟨[], List.replicate ct.length (-1), 0⟩
  ⟨st.units, st.map, ct⟩

/-- Slice `t[s..e)` of a list, the JS `t.slice(s, e)` for `s ≤ e`. -/
def sliceL {α : Type _} (t : List α) (s e : Nat) : List α :=
  (t.drop s).take (e - s)

/-- Ordering relation between successive regex matches: one ends no later
than the next starts. -/
def MOrd (a b : Nat × List Char) : Prop :=
  a.1 + a.2.length ≤ b.1

/-- End index of the last match, with an explicit default. -/
def lastEndD (ms : List (Nat × List Char)) (lo : Nat) : Nat :=
  match ms.getLast? with
  | none => lo
  | some m => m.1 + m.2.length

/-- Invariant of the char-to-unit map: its length is the cleaned text's
length `L` and each cell is the sentinel or a valid unit index. -/
def MapOk (L ulen : Nat) (map : List Int) : Prop :=
  map.length = L ∧ ∀ v ∈ map, v = -1 ∨ (0 ≤ v ∧ v.toNat < ulen)

/-- Span correctness of one display unit against the spoken form: the stored
range has exactly the length of the unit's sanitized text and the spoken
form restricted to it reproduces that text. -/
def UnitSpanOk (ct : List Char) (u : DUnit) : Prop :=
  u.stop = u.start + u.cleanedText.length ∧ sliceL ct u.start u.stop = u.cleanedText

/-- Cursor invariant of the alignment loop: the cursor stays inside the
spoken form and every unit recorded so far ends at or before it. -/
def CursorOk (ct : List Char) (st : AlignState) : Prop :=
  st.cursor ≤ ct.length ∧ ∀ u ∈ st.units, u.stop ≤ st.cursor

/-- Sample instantiation of the abstract Unicode class
`\p{L}\p{N}\p{P}\p{Z}` used in witnesses and counterexamples: it agrees with
the Unicode tables on every character those concrete inputs contain (ASCII
letters and digits are `L`/`N`; `.` `,` `!` `?` `。` are `P`; the space is
`Zs`; the newline, a control character, is correctly *not* kept; `😀` is `So`
and not kept). -/
def keepEx (c : Char) : Bool :=
  c.isAlpha || c.isDigit || c = '.' || c = '。' || c = ',' ||
  c = '!' || c = '?' || c = ' '

theorem joinTexts_nil : joinTexts [] = [] := rfl

theorem joinTexts_cons (u : SegUnit) (us : List SegUnit) :
    joinTexts (u :: us) = u.text ++ joinTexts us := by
  simp [joinTexts]

theorem joinTexts_append (a b : List SegUnit) :
    joinTexts (a ++ b) = joinTexts a ++ joinTexts b := by
  simp [joinTexts]

theorem mem_text_isInfix_joinTexts {u : SegUnit} {us : List SegUnit}
    (h : u ∈ us) : u.text <:+: joinTexts us := by
  obtain ⟨s, t, rfl⟩ := List.append_of_mem h
  rw [joinTexts_append, joinTexts_cons]
  exact ⟨joinTexts s, joinTexts t, by simp⟩

theorem isEmpty_true_iff {α : Type _} {l : List α} : l.isEmpty = true ↔ l = [] := by
  cases l <;> simp

theorem isEmpty_false_iff {α : Type _} {l : List α} : l.isEmpty = false ↔ l ≠ [] := by
  cases l <;> simp

theorem forceSplitGo_join (measure : List Char → Nat) (maxW basePos totalLen : Nat) :
    ∀ (rest cur : List Char) (curStart pos : Nat),
      joinTexts (forceSplitGo measure maxW basePos totalLen cur curStart pos rest) =
        cur ++ rest := by
  intro rest
  induction rest with
  | nil =>
    intro cur curStart pos
    simp only [forceSplitGo]
    by_cases h : cur.isEmpty = true
    · rw [if_pos h, isEmpty_true_iff.mp h]
      rfl
    · rw [if_neg h]
      simp [joinTexts]
  | cons c rest ih =>
    intro cur curStart pos
    simp only [forceSplitGo]
    by_cases h1 : measure (cur ++ [c]) ≤ maxW
    · rw [if_pos h1, ih]
      simp
    · rw [if_neg h1]
      by_cases h2 : cur.isEmpty = true
      · rw [if_pos h2, joinTexts_cons, ih, isEmpty_true_iff.mp h2]
        rfl
      · rw [if_neg h2]
        by_cases h3 : measure [c] ≤ maxW
        · rw [if_pos h3, joinTexts_cons, ih]
          simp
        · rw [if_neg h3, joinTexts_cons, joinTexts_cons, ih]
          simp

theorem forceSplitText_join (measure : List Char → Nat) (maxW : Nat)
    (t : List Char) (basePos : Nat) :
    joinTexts (forceSplitText measure maxW t basePos) = t := by
  simpa using forceSplitGo_join measure maxW basePos t.length t [] 0 0

theorem forceSplitGo_ne_nil (measure : List Char → Nat) (maxW basePos totalLen : Nat) :
    ∀ (rest cur : List Char) (curStart pos : Nat) (u : SegUnit),
      u ∈ forceSplitGo measure maxW basePos totalLen cur curStart pos rest →
        u.text ≠ [] := by
  intro rest
  induction rest with
  | nil =>
    intro cur curStart pos u hu
    simp only [forceSplitGo] at hu
    by_cases h : cur.isEmpty = true
    · rw [if_pos h] at hu
      simp at hu
    · rw [if_neg h] at hu
      simp only [List.mem_singleton] at hu
      subst hu
      exact fun hc => h (isEmpty_true_iff.mpr hc)
  | cons c rest ih =>
    intro cur curStart pos u hu
    simp only [forceSplitGo] at hu
    by_cases h1 : measure (cur ++ [c]) ≤ maxW
    · rw [if_pos h1] at hu
      exact ih _ _ _ u hu
    · rw [if_neg h1] at hu
      by_cases h2 : cur.isEmpty = true
      · rw [if_pos h2] at hu
        rcases List.mem_cons.mp hu with rfl | hu
        · simp
        · exact ih _ _ _ u hu
      · rw [if_neg h2] at hu
        rcases List.mem_cons.mp hu with rfl | hu
        · exact fun hc => h2 (isEmpty_true_iff.mpr hc)
        · by_cases h3 : measure [c] ≤ maxW
          · rw [if_pos h3] at hu
            exact ih _ _ _ u hu
          · rw [if_neg h3] at hu
            rcases List.mem_cons.mp hu with rfl | hu
            · simp
            · exact ih _ _ _ u hu

theorem forceSplitGo_width (measure : List Char → Nat) (maxW basePos totalLen : Nat) :
    ∀ (rest cur : List Char) (curStart pos : Nat),
      (cur = [] ∨ measure cur ≤ maxW) →
      ∀ u ∈ forceSplitGo measure maxW basePos totalLen cur curStart pos rest,
        measure u.text ≤ maxW ∨ u.text.length = 1 := by
  intro rest
  induction rest with
  | nil =>
    intro cur curStart pos hcur u hu
    simp only [forceSplitGo] at hu
    by_cases h : cur.isEmpty = true
    · rw [if_pos h] at hu
      simp at hu
    · rw [if_neg h] at hu
      simp only [List.mem_singleton] at hu
      subst hu
      rcases hcur with hc | hw
      · exact absurd (isEmpty_true_iff.mpr hc) h
      · exact Or.inl hw
  | cons c rest ih =>
    intro cur curStart pos hcur u hu
    simp only [forceSplitGo] at hu
    by_cases h1 : measure (cur ++ [c]) ≤ maxW
    · rw [if_pos h1] at hu
      exact ih _ _ _ (Or.inr h1) u hu
    · rw [if_neg h1] at hu
      by_cases h2 : cur.isEmpty = true
      · rw [if_pos h2] at hu
        rcases List.mem_cons.mp hu with rfl | hu
        · exact Or.inr rfl
        · exact ih _ _ _ (Or.inl rfl) u hu
      · rw [if_neg h2] at hu
        rcases List.mem_cons.mp hu with rfl | hu
        · rcases hcur with hc | hw
          · exact absurd (isEmpty_true_iff.mpr hc) h2
          · exact Or.inl hw
        · by_cases h3 : measure [c] ≤ maxW
          · rw [if_pos h3] at hu
            exact ih _ _ _ (Or.inr h3) u hu
          · rw [if_neg h3] at hu
            rcases List.mem_cons.mp hu with rfl | hu
            · exact Or.inr rfl
            · exact ih _ _ _ (Or.inl rfl) u hu

theorem forceSplitText_ne_nil (measure : List Char → Nat) (maxW : Nat)
    (t : List Char) (basePos : Nat) (u : SegUnit)
    (hu : u ∈ forceSplitText measure maxW t basePos) : u.text ≠ [] :=
  forceSplitGo_ne_nil measure maxW basePos t.length t [] 0 0 u hu

theorem forceSplitText_width (measure : List Char → Nat) (maxW : Nat)
    (t : List Char) (basePos : Nat) (u : SegUnit)
    (hu : u ∈ forceSplitText measure maxW t basePos) :
    measure u.text ≤ maxW ∨ u.text.length = 1 :=
  forceSplitGo_width measure maxW basePos t.length t [] 0 0 (Or.inl rfl) u hu

theorem drop_decomp {α : Type _} (t : List α) {a b : Nat} (h : a ≤ b) :
    t.drop a = sliceL t a b ++ t.drop b := by
  have h2 : (t.drop a).drop (b - a) = t.drop b := by
    rw [List.drop_drop]
    congr 1
    omega
  calc t.drop a = (t.drop a).take (b - a) ++ (t.drop a).drop (b - a) :=
        (List.take_append_drop _ _).symm
    _ = sliceL t a b ++ t.drop b := by rw [h2]; rfl

theorem slice_extend {t acc : List Char} {rs pos : Nat} {c : Char} {rest : List Char}
    (hlen : rs + acc.length = pos) (hsl : sliceL t rs pos = acc)
    (hdrop : t.drop pos = c :: rest) :
    sliceL t rs (pos + 1) = acc ++ [c] := by
  have h1 : t.drop rs = acc ++ (c :: rest) := by
    rw [drop_decomp t (show rs ≤ pos by omega), hsl, hdrop]
  have h2 : pos + 1 - rs = acc.length + 1 := by omega
  unfold sliceL
  rw [h1, h2, List.take_append_eq_append_take]
  simp

theorem slice_single {t : List Char} {pos : Nat} {c : Char} {rest : List Char}
    (hdrop : t.drop pos = c :: rest) :
    sliceL t pos (pos + 1) = [c] := by
  unfold sliceL
  rw [hdrop]
  simp

theorem sentGo_located (t : List Char) :
    ∀ (rest acc : List Char) (rs pos : Nat),
      t.drop pos = rest →
      pos + rest.length = t.length →
      (acc = [] → rs = pos) →
      (acc ≠ [] → rs + acc.length = pos ∧ sliceL t rs pos = acc) →
      (∀ m ∈ sentGo rest acc rs pos,
          rs ≤ m.1 ∧ m.1 + m.2.length ≤ t.length ∧
          sliceL t m.1 (m.1 + m.2.length) = m.2) ∧
      (sentGo rest acc rs pos).Pairwise MOrd := by
  intro rest
  induction rest with
  | nil =>
    intro acc rs pos _ _ _ _
    simp [sentGo]
  | cons c rest ih =>
    intro acc rs pos hdrop hlen hemp hne
    have hdrop' : t.drop (pos + 1) = rest := by
      rw [← List.drop_drop 1 pos t, hdrop]
      rfl
    have hlen' : (pos + 1) + rest.length = t.length := by
      simp at hlen
      omega
    have hposlt : pos < t.length := by
      simp at hlen
      omega
    simp only [sentGo]
    by_cases hse : isSentEnd c = true
    · rw [if_pos hse]
      by_cases ha : acc.isEmpty = true
      · rw [if_pos ha]
        have := ih [] (pos + 1) (pos + 1) hdrop' hlen' (fun _ => rfl)
          (fun hc => absurd rfl hc)
        refine ⟨fun m hm => ?_, this.2⟩
        obtain ⟨h1, h2, h3⟩ := (this.1 m hm)
        have : rs = pos := hemp (isEmpty_true_iff.mp ha)
        exact ⟨by omega, h2, h3⟩
      · rw [if_neg ha]
        have hane : acc ≠ [] := fun hc => ha (isEmpty_true_iff.mpr hc)
        obtain ⟨hrs, hsl⟩ := hne hane
        have hrec := ih [] (pos + 1) (pos + 1) hdrop' hlen' (fun _ => rfl)
          (fun hc => absurd rfl hc)
        constructor
        · intro m hm
          rcases List.mem_cons.mp hm with rfl | hm
          · refine ⟨le_refl _, ?_, ?_⟩
            · simp only [List.length_append, List.length_singleton]
              omega
            · have hx := slice_extend hrs hsl hdrop
              have he : rs + (acc ++ [c]).length = pos + 1 := by
                simp only [List.length_append, List.length_singleton]
                omega
              rw [he]
              exact hx
          · obtain ⟨h1, h2, h3⟩ := hrec.1 m hm
            exact ⟨by omega, h2, h3⟩
        · refine List.pairwise_cons.mpr ⟨fun m hm => ?_, hrec.2⟩
          have h1 := (hrec.1 m hm).1
          simp only [MOrd, List.length_append, List.length_singleton]
          omega
    · rw [if_neg hse]
      have hcons : (acc ++ [c]) ≠ [] := by simp
      by_cases ha : acc.isEmpty = true
      · rw [if_pos ha]
        have ha' : acc = [] := isEmpty_true_iff.mp ha
        subst ha'
        simp only [List.nil_append]
        have := ih [c] pos (pos + 1) hdrop' hlen'
          (fun hc => absurd hc (by simp))
          (fun _ => ⟨by simp, slice_single hdrop⟩)
        refine ⟨fun m hm => ?_, this.2⟩
        obtain ⟨h1, h2, h3⟩ := this.1 m hm
        have hrp : rs = pos := hemp rfl
        exact ⟨by omega, h2, h3⟩
      · have hane : acc ≠ [] := fun hc => ha (isEmpty_true_iff.mpr hc)
        obtain ⟨hrs, hsl⟩ := hne hane
        rw [if_neg ha]
        have := ih (acc ++ [c]) rs (pos + 1) hdrop' hlen'
          (fun hc => absurd hc hcons)
          (fun _ => ⟨by simp only [List.length_append, List.length_singleton]; omega,
            slice_extend hrs hsl hdrop⟩)
        exact this

theorem clauseGo_located (t : List Char) :
    ∀ (rest acc : List Char) (rs pos : Nat),
      t.drop pos = rest →
      pos + rest.length = t.length →
      (acc = [] → rs = pos) →
      (acc ≠ [] → rs + acc.length = pos ∧ sliceL t rs pos = acc) →
      (∀ m ∈ clauseGo rest acc rs pos,
          rs ≤ m.1 ∧ m.1 + m.2.length ≤ t.length ∧
          sliceL t m.1 (m.1 + m.2.length) = m.2) ∧
      (clauseGo rest acc rs pos).Pairwise MOrd := by
  intro rest
  induction rest with
  | nil =>
    intro acc rs pos hdrop hlen hemp hne
    simp only [clauseGo]
    by_cases ha : acc.isEmpty = true
    · rw [if_pos ha]
      simp
    · rw [if_neg ha]
      have hane : acc ≠ [] := fun hc => ha (isEmpty_true_iff.mpr hc)
      obtain ⟨hrs, hsl⟩ := hne hane
      have hpt : pos = t.length := by
        simp at hlen
        omega
      refine ⟨fun m hm => ?_, by simp⟩
      rcases List.mem_singleton.mp hm with rfl
      refine ⟨le_refl _, ?_, ?_⟩
      · show rs + acc.length ≤ t.length
        omega
      · show sliceL t rs (rs + acc.length) = acc
        rw [show rs + acc.length = pos from hrs]
        exact hsl
  | cons c rest ih =>
    intro acc rs pos hdrop hlen hemp hne
    have hdrop' : t.drop (pos + 1) = rest := by
      rw [← List.drop_drop 1 pos t, hdrop]
      rfl
    have hlen' : (pos + 1) + rest.length = t.length := by
      simp at hlen
      omega
    simp only [clauseGo]
    by_cases hse : isClauseSep c = true
    · rw [if_pos hse]
      by_cases ha : acc.isEmpty = true
      · rw [if_pos ha]
        have := ih [] (pos + 1) (pos + 1) hdrop' hlen' (fun _ => rfl)
          (fun hc => absurd rfl hc)
        refine ⟨fun m hm => ?_, this.2⟩
        obtain ⟨h1, h2, h3⟩ := (this.1 m hm)
        have : rs = pos := hemp (isEmpty_true_iff.mp ha)
        exact ⟨by omega, h2, h3⟩
      · rw [if_neg ha]
        have hane : acc ≠ [] := fun hc => ha (isEmpty_true_iff.mpr hc)
        obtain ⟨hrs, hsl⟩ := hne hane
        have hrec := ih [] (pos + 1) (pos + 1) hdrop' hlen' (fun _ => rfl)
          (fun hc => absurd rfl hc)
        constructor
        · intro m hm
          rcases List.mem_cons.mp hm with rfl | hm
          · refine ⟨le_refl _, ?_, ?_⟩
            · simp only [List.length_append, List.length_singleton]
              omega
            · have hx := slice_extend hrs hsl hdrop
              have he : rs + (acc ++ [c]).length = pos + 1 := by
                simp only [List.length_append, List.length_singleton]
                omega
              rw [he]
              exact hx
          · obtain ⟨h1, h2, h3⟩ := hrec.1 m hm
            exact ⟨by omega, h2, h3⟩
        · refine List.pairwise_cons.mpr ⟨fun m hm => ?_, hrec.2⟩
          have h1 := (hrec.1 m hm).1
          simp only [MOrd, List.length_append, List.length_singleton]
          omega
    · rw [if_neg hse]
      have hcons : (acc ++ [c]) ≠ [] := by simp
      by_cases ha : acc.isEmpty = true
      · rw [if_pos ha]
        have ha' : acc = [] := isEmpty_true_iff.mp ha
        subst ha'
        simp only [List.nil_append]
        have := ih [c] pos (pos + 1) hdrop' hlen'
          (fun hc => absurd hc (by simp))
          (fun _ => ⟨by simp, slice_single hdrop⟩)
        refine ⟨fun m hm => ?_, this.2⟩
        obtain ⟨h1, h2, h3⟩ := this.1 m hm
        have hrp : rs = pos := hemp rfl
        exact ⟨by omega, h2, h3⟩
      · have hane : acc ≠ [] := fun hc => ha (isEmpty_true_iff.mpr hc)
        obtain ⟨hrs, hsl⟩ := hne hane
        rw [if_neg ha]
        exact ih (acc ++ [c]) rs (pos + 1) hdrop' hlen'
          (fun hc => absurd hc hcons)
          (fun _ => ⟨by simp only [List.length_append, List.length_singleton]; omega,
            slice_extend hrs hsl hdrop⟩)

theorem sentMatches_located (t : List Char) :
    (∀ m ∈ sentMatches t, m.1 + m.2.length ≤ t.length ∧
        sliceL t m.1 (m.1 + m.2.length) = m.2) ∧
      (sentMatches t).Pairwise MOrd := by
  have := sentGo_located t t [] 0 0 (by simp) (by simp) (fun _ => rfl)
    (fun hc => absurd rfl hc)
  exact ⟨fun m hm => ⟨(this.1 m hm).2.1, (this.1 m hm).2.2⟩, this.2⟩

theorem clauseMatches_located (t : List Char) :
    (∀ m ∈ clauseMatches t, m.1 + m.2.length ≤ t.length ∧
        sliceL t m.1 (m.1 + m.2.length) = m.2) ∧
      (clauseMatches t).Pairwise MOrd := by
  have := clauseGo_located t t [] 0 0 (by simp) (by simp) (fun _ => rfl)
    (fun hc => absurd rfl hc)
  exact ⟨fun m hm => ⟨(this.1 m hm).2.1, (this.1 m hm).2.2⟩, this.2⟩

theorem lastEndD_cons (m : Nat × List Char) (ms : List (Nat × List Char)) (lo : Nat) :
    lastEndD (m :: ms) lo = lastEndD ms (m.1 + m.2.length) := by
  cases ms with
  | nil => rfl
  | cons m2 ms =>
    cases h : (m2 :: ms).getLast? with
    | none => simp at h
    | some mz => simp [lastEndD, List.getLast?_cons_cons, h]

theorem lastEndRel_eq_lastEndD (ms : List (Nat × List Char)) :
    lastEndRel ms = lastEndD ms 0 := by
  cases h : ms.getLast? <;> simp [lastEndRel, lastEndD, h]

theorem located_sublist (t : List Char) :
    ∀ (ms : List (Nat × List Char)) (lo : Nat),
      (∀ m ∈ ms, lo ≤ m.1 ∧ m.1 + m.2.length ≤ t.length ∧
        sliceL t m.1 (m.1 + m.2.length) = m.2) →
      ms.Pairwise MOrd →
      ((ms.map Prod.snd).flatten ++ t.drop (lastEndD ms lo)).Sublist (t.drop lo) := by
  intro ms
  induction ms with
  | nil =>
    intro lo _ _
    simp [lastEndD]
  | cons m rest ih =>
    intro lo hloc hpw
    obtain ⟨hlo, hend, hslice⟩ := hloc m (List.mem_cons_self m rest)
    have hpw' := List.pairwise_cons.mp hpw
    have hrest : ∀ m' ∈ rest, (m.1 + m.2.length) ≤ m'.1 ∧
        m'.1 + m'.2.length ≤ t.length ∧ sliceL t m'.1 (m'.1 + m'.2.length) = m'.2 := by
      intro m' hm'
      exact ⟨hpw'.1 m' hm', (hloc m' (List.mem_cons_of_mem m hm')).2⟩
    have hIH := ih (m.1 + m.2.length) hrest hpw'.2
    have hdec1 : t.drop lo = sliceL t lo m.1 ++ t.drop m.1 := drop_decomp t hlo
    have hdec2 : t.drop m.1 = m.2 ++ t.drop (m.1 + m.2.length) := by
      have := drop_decomp t (show m.1 ≤ m.1 + m.2.length by omega)
      rw [hslice] at this
      exact this
    rw [lastEndD_cons, List.map_cons, List.flatten_cons, hdec1, hdec2,
      List.append_assoc]
    refine List.Sublist.trans ?_ (List.sublist_append_right (sliceL t lo m.1) _)
    exact (List.Sublist.refl m.2).append hIH

theorem joinTexts_flatMap {α : Type _} (ms : List α) (f : α → List SegUnit) :
    joinTexts (ms.flatMap f) = (ms.map (fun m => joinTexts (f m))).flatten := by
  induction ms with
  | nil => rfl
  | cons m rest ih => simp [joinTexts_append, ih]

theorem flatten_sublist_flatten {α β : Type _} (ms : List α) (f g : α → List β)
    (h : ∀ m ∈ ms, (f m).Sublist (g m)) :
    ((ms.map f).flatten).Sublist ((ms.map g).flatten) := by
  induction ms with
  | nil => simp
  | cons m rest ih =>
    simp only [List.map_cons, List.flatten_cons]
    exact (h m (List.mem_cons_self m rest)).append
      (ih (fun m' hm' => h m' (List.mem_cons_of_mem m hm')))

theorem slice_isInfix (t : List Char) (a b : Nat) : sliceL t a b <:+: t :=
  ⟨t.take a, (t.drop a).drop (b - a), by
    show t.take a ++ (t.drop a).take (b - a) ++ (t.drop a).drop (b - a) = t
    rw [List.append_assoc, List.take_append_drop, List.take_append_drop]⟩

theorem splitByPunctuation_join_sublist (measure : List Char → Nat) (maxW : Nat)
    (t : List Char) (basePos : Nat) :
    (joinTexts (splitByPunctuation measure maxW t basePos)).Sublist t := by
  simp only [splitByPunctuation]
  by_cases hm : (clauseMatches t).isEmpty = true
  · rw [if_pos hm, forceSplitText_join]
  · rw [if_neg hm]
    rw [joinTexts_append, joinTexts_flatMap]
    have hunits : ((clauseMatches t).map (fun m => joinTexts
        (if measure m.2 ≤ maxW then [⟨m.2, basePos + m.1, basePos + m.1 + m.2.length⟩]
         else forceSplitText measure maxW m.2 (basePos + m.1)))).flatten =
        ((clauseMatches t).map Prod.snd).flatten := by
      congr 1
      apply List.map_congr_left
      intro m _
      by_cases hw : measure m.2 ≤ maxW
      · rw [if_pos hw]
        simp [joinTexts]
      · rw [if_neg hw, forceSplitText_join]
    rw [hunits]
    have hloc := clauseMatches_located t
    have hsub := located_sublist t (clauseMatches t) 0
      (fun m hm' => ⟨Nat.zero_le _, hloc.1 m hm'⟩) hloc.2
    rw [List.drop_zero, ← lastEndRel_eq_lastEndD] at hsub
    refine List.Sublist.trans ?_ hsub
    refine (List.Sublist.refl _).append ?_
    by_cases h1 : lastEndRel (clauseMatches t) < t.length
    · rw [if_pos h1]
      by_cases h2 : (jsTrim (t.drop (lastEndRel (clauseMatches t)))).isEmpty = true
      · rw [if_pos h2]
        exact List.nil_sublist _
      · rw [if_neg h2]
        by_cases h3 : measure (t.drop (lastEndRel (clauseMatches t))) ≤ maxW
        · rw [if_pos h3]
          simp [joinTexts]
        · rw [if_neg h3, forceSplitText_join]
    · rw [if_neg h1]
      exact List.nil_sublist _

theorem smartSplitText_join_sublist (measure : List Char → Nat) (maxW : Nat)
    (t : List Char) :
    (joinTexts (smartSplitText measure maxW t)).Sublist t := by
  simp only [smartSplitText]
  by_cases h0 : measure t ≤ maxW
  · rw [if_pos h0]
    simp [joinTexts]
  · rw [if_neg h0]
    by_cases hm : (sentMatches t).isEmpty = true
    · rw [if_pos hm]
      exact splitByPunctuation_join_sublist measure maxW t 0
    · rw [if_neg hm]
      rw [joinTexts_append, joinTexts_flatMap]
      have hloc := sentMatches_located t
      have hsub := located_sublist t (sentMatches t) 0
        (fun m hm' => ⟨Nat.zero_le _, hloc.1 m hm'⟩) hloc.2
      rw [List.drop_zero, ← lastEndRel_eq_lastEndD] at hsub
      refine List.Sublist.trans ?_ hsub
      refine List.Sublist.append ?_ ?_
      · refine flatten_sublist_flatten _ _ _ ?_
        intro m _
        by_cases hw : measure m.2 ≤ maxW
        · rw [if_pos hw]
          simp [joinTexts]
        · rw [if_neg hw]
          exact splitByPunctuation_join_sublist measure maxW m.2 m.1
      · by_cases h1 : lastEndRel (sentMatches t) < t.length
        · rw [if_pos h1]
          by_cases h2 : (jsTrim (t.drop (lastEndRel (sentMatches t)))).isEmpty = true
          · rw [if_pos h2]
            exact List.nil_sublist _
          · rw [if_neg h2]
            by_cases h3 : measure (t.drop (lastEndRel (sentMatches t))) ≤ maxW
            · rw [if_pos h3]
              simp [joinTexts]
            · rw [if_neg h3]
              exact splitByPunctuation_join_sublist measure maxW _ _
        · rw [if_neg h1]
          exact List.nil_sublist _

theorem splitByPunctuation_width (measure : List Char → Nat) (maxW : Nat)
    (t : List Char) (basePos : Nat) :
    ∀ u ∈ splitByPunctuation measure maxW t basePos,
      measure u.text ≤ maxW ∨ u.text.length = 1 := by
  intro u hu
  simp only [splitByPunctuation] at hu
  by_cases hm : (clauseMatches t).isEmpty = true
  · rw [if_pos hm] at hu
    exact forceSplitText_width measure maxW t basePos u hu
  · rw [if_neg hm] at hu
    rcases List.mem_append.mp hu with hu | hu
    · obtain ⟨m, _, hum⟩ := List.mem_flatMap.mp hu
      by_cases hw : measure m.2 ≤ maxW
      · rw [if_pos hw] at hum
        rcases List.mem_singleton.mp hum with rfl
        exact Or.inl hw
      · rw [if_neg hw] at hum
        exact forceSplitText_width measure maxW m.2 _ u hum
    · by_cases h1 : lastEndRel (clauseMatches t) < t.length
      · rw [if_pos h1] at hu
        by_cases h2 : (jsTrim (t.drop (lastEndRel (clauseMatches t)))).isEmpty = true
        · rw [if_pos h2] at hu
          simp at hu
        · rw [if_neg h2] at hu
          by_cases h3 : measure (t.drop (lastEndRel (clauseMatches t))) ≤ maxW
          · rw [if_pos h3] at hu
            rcases List.mem_singleton.mp hu with rfl
            exact Or.inl h3
          · rw [if_neg h3] at hu
            exact forceSplitText_width measure maxW _ _ u hu
      · rw [if_neg h1] at hu
        simp at hu

theorem smartSplitText_width (measure : List Char → Nat) (maxW : Nat)
    (t : List Char) :
    ∀ u ∈ smartSplitText measure maxW t,
      measure u.text ≤ maxW ∨ u.text.length = 1 := by
  intro u hu
  simp only [smartSplitText] at hu
  by_cases h0 : measure t ≤ maxW
  · rw [if_pos h0] at hu
    rcases List.mem_singleton.mp hu with rfl
    exact Or.inl h0
  · rw [if_neg h0] at hu
    by_cases hm : (sentMatches t).isEmpty = true
    · rw [if_pos hm] at hu
      exact splitByPunctuation_width measure maxW t 0 u hu
    · rw [if_neg hm] at hu
      rcases List.mem_append.mp hu with hu | hu
      · obtain ⟨m, _, hum⟩ := List.mem_flatMap.mp hu
        by_cases hw : measure m.2 ≤ maxW
        · rw [if_pos hw] at hum
          rcases List.mem_singleton.mp hum with rfl
          exact Or.inl hw
        · rw [if_neg hw] at hum
          exact splitByPunctuation_width measure maxW m.2 m.1 u hum
      · by_cases h1 : lastEndRel (sentMatches t) < t.length
        · rw [if_pos h1] at hu
          by_cases h2 : (jsTrim (t.drop (lastEndRel (sentMatches t)))).isEmpty = true
          · rw [if_pos h2] at hu
            simp at hu
          · rw [if_neg h2] at hu
            by_cases h3 : measure (t.drop (lastEndRel (sentMatches t))) ≤ maxW
            · rw [if_pos h3] at hu
              rcases List.mem_singleton.mp hu with rfl
              exact Or.inl h3
            · rw [if_neg h3] at hu
              exact splitByPunctuation_width measure maxW _ _ u hu
        · rw [if_neg h1] at hu
          simp at hu

theorem splitByPunctuation_isInfix (measure : List Char → Nat) (maxW : Nat)
    (t : List Char) (basePos : Nat) :
    ∀ u ∈ splitByPunctuation measure maxW t basePos, u.text <:+: t := by
  intro u hu
  simp only [splitByPunctuation] at hu
  by_cases hm : (clauseMatches t).isEmpty = true
  · rw [if_pos hm] at hu
    have := mem_text_isInfix_joinTexts hu
    rwa [forceSplitText_join] at this
  · rw [if_neg hm] at hu
    rcases List.mem_append.mp hu with hu | hu
    · obtain ⟨m, hmm, hum⟩ := List.mem_flatMap.mp hu
      have hm2 : m.2 <:+: t := by
        have := (clauseMatches_located t).1 m hmm
        rw [← this.2]
        exact slice_isInfix t _ _
      by_cases hw : measure m.2 ≤ maxW
      · rw [if_pos hw] at hum
        rcases List.mem_singleton.mp hum with rfl
        exact hm2
      · rw [if_neg hw] at hum
        have := mem_text_isInfix_joinTexts hum
        rw [forceSplitText_join] at this
        exact this.trans hm2
    · have hdropinf : t.drop (lastEndRel (clauseMatches t)) <:+: t :=
        (List.drop_suffix _ t).isInfix
      by_cases h1 : lastEndRel (clauseMatches t) < t.length
      · rw [if_pos h1] at hu
        by_cases h2 : (jsTrim (t.drop (lastEndRel (clauseMatches t)))).isEmpty = true
        · rw [if_pos h2] at hu
          simp at hu
        · rw [if_neg h2] at hu
          by_cases h3 : measure (t.drop (lastEndRel (clauseMatches t))) ≤ maxW
          · rw [if_pos h3] at hu
            rcases List.mem_singleton.mp hu with rfl
            exact hdropinf
          · rw [if_neg h3] at hu
            have := mem_text_isInfix_joinTexts hu
            rw [forceSplitText_join] at this
            exact this.trans hdropinf
      · rw [if_neg h1] at hu
        simp at hu

theorem smartSplitText_isInfix (measure : List Char → Nat) (maxW : Nat)
    (t : List Char) :
    ∀ u ∈ smartSplitText measure maxW t, u.text <:+: t := by
  intro u hu
  simp only [smartSplitText] at hu
  by_cases h0 : measure t ≤ maxW
  · rw [if_pos h0] at hu
    rcases List.mem_singleton.mp hu with rfl
    exact List.infix_refl t
  · rw [if_neg h0] at hu
    by_cases hm : (sentMatches t).isEmpty = true
    · rw [if_pos hm] at hu
      exact splitByPunctuation_isInfix measure maxW t 0 u hu
    · rw [if_neg hm] at hu
      rcases List.mem_append.mp hu with hu | hu
      · obtain ⟨m, hmm, hum⟩ := List.mem_flatMap.mp hu
        have hm2 : m.2 <:+: t := by
          have := (sentMatches_located t).1 m hmm
          rw [← this.2]
          exact slice_isInfix t _ _
        by_cases hw : measure m.2 ≤ maxW
        · rw [if_pos hw] at hum
          rcases List.mem_singleton.mp hum with rfl
          exact hm2
        · rw [if_neg hw] at hum
          exact (splitByPunctuation_isInfix measure maxW m.2 m.1 u hum).trans hm2
      · have hdropinf : t.drop (lastEndRel (sentMatches t)) <:+: t :=
          (List.drop_suffix _ t).isInfix
        by_cases h1 : lastEndRel (sentMatches t) < t.length
        · rw [if_pos h1] at hu
          by_cases h2 : (jsTrim (t.drop (lastEndRel (sentMatches t)))).isEmpty = true
          · rw [if_pos h2] at hu
            simp at hu
          · rw [if_neg h2] at hu
            by_cases h3 : measure (t.drop (lastEndRel (sentMatches t))) ≤ maxW
            · rw [if_pos h3] at hu
              rcases List.mem_singleton.mp hu with rfl
              exact hdropinf
            · rw [if_neg h3] at hu
              exact (splitByPunctuation_isInfix measure maxW _ _ u hu).trans hdropinf
        · rw [if_neg h1] at hu
          simp at hu

theorem collapseGo_prefixOf (b : List Char) :
    ∀ (x : List Char) (f : Bool), (collapseGo f x) <+: (collapseGo f (x ++ b)) := by
  intro x
  induction x with
  | nil =>
    intro f
    simp [collapseGo]
  | cons c r ih =>
    intro f
    simp only [List.cons_append, collapseGo]
    by_cases hw : isWs c = true
    · rw [if_pos hw, if_pos hw]
      cases f with
      | true =>
        rw [if_pos rfl, if_pos rfl]
        exact ih true
      | false =>
        rw [if_neg (by simp), if_neg (by simp)]
        exact List.cons_prefix_cons.mpr ⟨rfl, ih true⟩
    · rw [if_neg hw, if_neg hw]
      exact List.cons_prefix_cons.mpr ⟨rfl, ih false⟩

theorem collapseGo_suffix (x : List Char) :
    ∀ (a : List Char),
      (collapseWs x) <:+ (collapseGo false (a ++ x)) ∧
      (collapseWs x) <:+ (' ' :: collapseGo true (a ++ x)) := by
  intro a
  induction a with
  | nil =>
    constructor
    · exact List.suffix_refl _
    · simp only [List.nil_append]
      cases x with
      | nil => simp [collapseWs, collapseGo]
      | cons d r =>
        by_cases hw : isWs d = true
        · have h1 : collapseWs (d :: r) = ' ' :: collapseGo true r := by
            simp only [collapseWs, collapseGo, if_pos hw]
            simp
          have h2 : collapseGo true (d :: r) = collapseGo true r := by
            simp only [collapseGo, if_pos hw]
            simp
          rw [h1, h2]
        · have h1 : collapseWs (d :: r) = d :: collapseGo false r := by
            simp only [collapseWs, collapseGo, if_neg hw]
          have h2 : collapseGo true (d :: r) = d :: collapseGo false r := by
            simp only [collapseGo, if_neg hw]
          rw [h1, h2]
          exact List.suffix_cons ' ' _
  | cons c a' ih =>
    simp only [List.cons_append, collapseGo]
    by_cases hw : isWs c = true
    · rw [if_pos hw, if_pos hw]
      simp only [if_neg (by simp : ¬(false = true)), if_pos rfl]
      exact ⟨ih.2, ih.2⟩
    · rw [if_neg hw, if_neg hw]
      exact ⟨ih.1.trans (List.suffix_cons c _),
        (ih.1.trans (List.suffix_cons c _)).trans (List.suffix_cons ' ' _)⟩

theorem collapseWs_isInfix {sub t : List Char} (h : sub <:+: t) :
    collapseWs sub <:+: collapseWs t := by
  obtain ⟨a, b, rfl⟩ := h
  have hp : collapseWs sub <+: collapseWs (sub ++ b) := collapseGo_prefixOf b sub false
  have hs : collapseWs (sub ++ b) <:+ collapseWs (a ++ (sub ++ b)) :=
    (collapseGo_suffix (sub ++ b) a).1
  have := hp.isInfix.trans hs.isInfix
  rwa [← List.append_assoc] at this

theorem cleanText_isInfix (keep : Char → Bool) {sub t : List Char} (h : sub <:+: t) :
    cleanText keep sub <:+: cleanText keep t :=
  collapseWs_isInfix ((h.filter _).filter _)

theorem idxGo_sound (needle : List Char) :
    ∀ (l : List Char) (p0 p : Nat), idxGo needle l p0 = some p →
      p0 ≤ p ∧ needle <+: l.drop (p - p0) := by
  intro l
  induction l with
  | nil =>
    intro p0 p h
    simp [idxGo] at h
  | cons c rest ih =>
    intro p0 p h
    simp only [idxGo] at h
    by_cases hp : needle.isPrefixOf (c :: rest) = true
    · rw [if_pos hp] at h
      rcases Option.some.injEq _ _ ▸ h with rfl
      refine ⟨le_refl _, ?_⟩
      simp only [Nat.sub_self, List.drop_zero]
      exact List.isPrefixOf_iff_prefix.mp hp
    · rw [if_neg hp] at h
      obtain ⟨h1, h2⟩ := ih (p0 + 1) p h
      refine ⟨by omega, ?_⟩
      have : p - p0 = (p - (p0 + 1)) + 1 := by omega
      rw [this, List.drop_succ_cons]
      exact h2

theorem idxGo_minimal (needle : List Char) :
    ∀ (l : List Char) (p0 p : Nat), idxGo needle l p0 = some p →
      ∀ q, p0 ≤ q → q < p → ¬ needle <+: l.drop (q - p0) := by
  intro l
  induction l with
  | nil =>
    intro p0 p h
    simp [idxGo] at h
  | cons c rest ih =>
    intro p0 p h q hq1 hq2
    simp only [idxGo] at h
    by_cases hp : needle.isPrefixOf (c :: rest) = true
    · rw [if_pos hp] at h
      rcases Option.some.injEq _ _ ▸ h with rfl
      omega
    · rw [if_neg hp] at h
      by_cases hq : q = p0
      · subst hq
        simp only [Nat.sub_self, List.drop_zero]
        intro hc
        have hpref := List.isPrefixOf_iff_prefix.mpr hc
        exact hp hpref
      · have : q - p0 = (q - (p0 + 1)) + 1 := by omega
        rw [this, List.drop_succ_cons]
        exact ih (p0 + 1) p h q (by omega) hq2

theorem idxGo_complete (needle : List Char) (hne : needle ≠ []) :
    ∀ (l : List Char) (p0 k : Nat), needle <+: l.drop k →
      ∃ p, idxGo needle l p0 = some p ∧ p ≤ p0 + k := by
  intro l
  induction l with
  | nil =>
    intro p0 k h
    rw [List.drop_nil] at h
    exact absurd (List.prefix_nil.mp h) hne
  | cons c rest ih =>
    intro p0 k h
    simp only [idxGo]
    by_cases hp : needle.isPrefixOf (c :: rest) = true
    · rw [if_pos hp]
      exact ⟨p0, rfl, by omega⟩
    · rw [if_neg hp]
      cases k with
      | zero =>
        rw [List.drop_zero] at h
        have hpref := List.isPrefixOf_iff_prefix.mpr h
        exact absurd hpref hp
      | succ k' =>
        rw [List.drop_succ_cons] at h
        obtain ⟨p, hp1, hp2⟩ := ih (p0 + 1) k' h
        exact ⟨p, hp1, by omega⟩

theorem idxOfFrom_sound {hay needle : List Char} {f p : Nat}
    (h : idxOfFrom hay needle f = some p) :
    p + needle.length ≤ hay.length ∧
    sliceL hay p (p + needle.length) = needle ∧
    min f hay.length ≤ p ∧
    (needle = [] → p = min f hay.length) := by
  simp only [idxOfFrom] at h
  by_cases he : needle.isEmpty = true
  · rw [if_pos he] at h
    have hne : needle = [] := isEmpty_true_iff.mp he
    rcases Option.some.injEq _ _ ▸ h with rfl
    subst hne
    refine ⟨by simp [Nat.min_le_right], ?_, le_refl _, fun _ => rfl⟩
    simp [sliceL]
  · rw [if_neg he] at h
    have hne : needle ≠ [] := fun hc => he (isEmpty_true_iff.mpr hc)
    obtain ⟨h1, h2⟩ := idxGo_sound needle (hay.drop f) f p h
    have hdp : (hay.drop f).drop (p - f) = hay.drop p := by
      rw [List.drop_drop]
      congr 1
      omega
    rw [hdp] at h2
    obtain ⟨tl, htl⟩ := h2
    have hlen : needle.length ≤ (hay.drop p).length := by
      rw [← htl]
      simp
    rw [List.length_drop] at hlen
    have hnn : 0 < needle.length := List.length_pos.mpr hne
    refine ⟨by omega, ?_, ?_, fun hc => absurd hc hne⟩
    · have : sliceL hay p (p + needle.length) = (hay.drop p).take needle.length := by
        simp [sliceL]
      rw [this, ← htl, List.take_left]
    · exact le_trans (Nat.min_le_left _ _) h1

theorem idxOfFrom_complete {hay needle : List Char} {f q : Nat} (hne : needle ≠ [])
    (hfq : f ≤ q) (hq : needle <+: hay.drop q) :
    ∃ p, idxOfFrom hay needle f = some p ∧ p ≤ q := by
  simp only [idxOfFrom]
  rw [if_neg (show ¬needle.isEmpty = true from fun hc => hne (isEmpty_true_iff.mp hc))]
  have hdp : (hay.drop f).drop (q - f) = hay.drop q := by
    rw [List.drop_drop]
    congr 1
    omega
  obtain ⟨p, hp1, hp2⟩ := idxGo_complete needle hne (hay.drop f) f (q - f)
    (by rw [hdp]; exact hq)
  exact ⟨p, hp1, by omega⟩

theorem writeRange_length :
    ∀ (len : Nat) (m : List Int) (s : Nat) (v : Int),
      (writeRange m s len v).length = m.length := by
  intro len
  induction len with
  | zero => intro m s v; rfl
  | succ n ih =>
    intro m s v
    simp only [writeRange]
    rw [ih]
    simp

theorem writeRange_mem :
    ∀ (len : Nat) (m : List Int) (s : Nat) (v : Int) (x : Int),
      x ∈ writeRange m s len v → x ∈ m ∨ x = v := by
  intro len
  induction len with
  | zero => intro m s v x h; exact Or.inl h
  | succ n ih =>
    intro m s v x h
    simp only [writeRange] at h
    rcases ih (m.set s v) (s + 1) v x h with h1 | h1
    · exact (List.mem_or_eq_of_mem_set h1).imp_right id
    · exact Or.inr h1

theorem mapOk_mono {L n m : Nat} {map : List Int} (h : MapOk L n map) (hnm : n ≤ m) :
    MapOk L m map :=
  ⟨h.1, fun v hv => (h.2 v hv).imp_right (fun hx => ⟨hx.1, lt_of_lt_of_le hx.2 hnm⟩)⟩

theorem processUnitStep_mapOk {L : Nat} (keep : Char → Bool) (ct : List Char)
    (lp : Nat) {st : AlignState} (u : SegUnit)
    (h : MapOk L st.units.length st.map) :
    MapOk L (processUnitStep keep ct lp st u).units.length
      (processUnitStep keep ct lp st u).map := by
  cases hidx : idxOfFrom ct (cleanText keep u.text) lp with
  | none =>
    simp only [processUnitStep, hidx]
    exact h
  | some p =>
    simp only [processUnitStep, hidx]
    constructor
    · rw [writeRange_length]
      exact h.1
    · intro v hv
      rcases writeRange_mem _ _ _ _ v hv with h1 | h1
      · refine (h.2 v h1).imp_right (fun hx => ⟨hx.1, ?_⟩)
        simp only [List.length_append, List.length_singleton]
        omega
      · rw [h1]
        refine Or.inr ⟨Int.ofNat_nonneg _, ?_⟩
        simp only [Int.toNat_natCast, List.length_append, List.length_singleton]
        omega

theorem foldl_processUnitStep_mapOk {L : Nat} (keep : Char → Bool) (ct : List Char)
    (lp : Nat) :
    ∀ (us : List SegUnit) (st : AlignState), MapOk L st.units.length st.map →
      MapOk L (us.foldl (processUnitStep keep ct lp) st).units.length
        (us.foldl (processUnitStep keep ct lp) st).map := by
  intro us
  induction us with
  | nil => intro st h; exact h
  | cons u rest ih =>
    intro st h
    rw [List.foldl_cons]
    exact ih _ (processUnitStep_mapOk keep ct lp u h)

theorem processLineStep_mapOk {L : Nat} (measure : List Char → Nat) (maxW : Nat)
    (keep : Char → Bool) (ct : List Char) {st : AlignState}
    (pair : List Char × Option (List Char))
    (h : MapOk L st.units.length st.map) :
    MapOk L (processLineStep measure maxW keep ct st pair).units.length
      (processLineStep measure maxW keep ct st pair).map := by
  obtain ⟨orig, clo⟩ := pair
  cases clo with
  | none =>
    simp only [processLineStep]
    exact h
  | some cl =>
    by_cases hcl : cl.isEmpty = true
    · simp only [processLineStep, hcl, if_pos]
      exact h
    · cases hidx : idxOfFrom ct cl st.cursor with
      | none =>
        simp only [processLineStep, if_neg hcl, hidx]
        exact h
      | some linePos =>
        simp only [processLineStep, if_neg hcl, hidx]
        exact foldl_processUnitStep_mapOk keep ct linePos _ st h

theorem alignGo_mapOk {L : Nat} (measure : List Char → Nat) (maxW : Nat)
    (keep : Char → Bool) (ct : List Char) :
    ∀ (pairs : List (List Char × Option (List Char))) (st : AlignState),
      MapOk L st.units.length st.map →
      MapOk L (alignGo measure maxW keep ct st pairs).units.length
        (alignGo measure maxW keep ct st pairs).map := by
  intro pairs
  induction pairs with
  | nil => intro st h; exact h
  | cons p rest ih =>
    intro st h
    exact ih _ (processLineStep_mapOk measure maxW keep ct p h)

theorem processSubtitleText_mapOk (measure : List Char → Nat) (maxW : Nat)
    (keep : Char → Bool) (rawText : List Char) (mdLines : List (List Char)) :
    (processSubtitleText measure maxW keep rawText mdLines).charToUnitMap.length =
      (processSubtitleText measure maxW keep rawText mdLines).cleanedText.length ∧
    ∀ v ∈ (processSubtitleText measure maxW keep rawText mdLines).charToUnitMap,
      v = -1 ∨ (0 ≤ v ∧ v.toNat <
        (processSubtitleText measure maxW keep rawText mdLines).displayUnits.length) := by
  have h0 : MapOk (cleanText keep rawText).length
      ((⟨[], List.replicate (cleanText keep rawText).length (-1), 0⟩ : AlignState).units.length)
      ((⟨[], List.replicate (cleanText keep rawText).length (-1), 0⟩ : AlignState).map) := by
    constructor
    · simp
    · intro v hv
      exact Or.inl (List.eq_of_mem_replicate hv)
  have hres := alignGo_mapOk measure maxW keep (cleanText keep rawText)
    (linePairs keep mdLines) _ h0
  exact ⟨hres.1, hres.2⟩

theorem kUnitStep_mapOk {L : Nat} (ct readingLine : List Char) {st : KState}
    (u : SegUnit) (h : MapOk L st.units.length st.map) :
    MapOk L (kUnitStep ct readingLine st u).units.length
      (kUnitStep ct readingLine st u).map := by
  cases hidx : idxOfFrom ct readingLine st.cursor with
  | none =>
    simp only [kUnitStep, hidx]
    exact h
  | some p =>
    simp only [kUnitStep, hidx]
    constructor
    · rw [writeRange_length]
      exact h.1
    · intro v hv
      rcases writeRange_mem _ _ _ _ v hv with h1 | h1
      · refine (h.2 v h1).imp_right (fun hx => ⟨hx.1, ?_⟩)
        simp only [List.length_append, List.length_singleton]
        omega
      · rw [h1]
        refine Or.inr ⟨Int.ofNat_nonneg _, ?_⟩
        simp only [Int.toNat_natCast, List.length_append, List.length_singleton]
        omega

theorem foldl_kUnitStep_mapOk {L : Nat} (ct readingLine : List Char) :
    ∀ (us : List SegUnit) (st : KState), MapOk L st.units.length st.map →
      MapOk L (us.foldl (kUnitStep ct readingLine) st).units.length
        (us.foldl (kUnitStep ct readingLine) st).map := by
  intro us
  induction us with
  | nil => intro st h; exact h
  | cons u rest ih =>
    intro st h
    rw [List.foldl_cons]
    exact ih _ (kUnitStep_mapOk ct readingLine u h)

theorem kLineStep_mapOk {L : Nat} (measure : List Char → Nat) (maxW : Nat)
    (ct : List Char) {st : KState} (pair : List Char × List Char)
    (h : MapOk L st.units.length st.map) :
    MapOk L (kLineStep measure maxW ct st pair).units.length
      (kLineStep measure maxW ct st pair).map := by
  by_cases hcl : pair.1.isEmpty = true
  · simp only [kLineStep, hcl, if_pos]
    exact h
  · simp only [kLineStep, if_neg hcl]
    exact foldl_kUnitStep_mapOk ct pair.2 _ st h

theorem processTextK_mapOk (measure : List Char → Nat) (maxW : Nat)
    (keep : Char → Bool) (textLines : List (List Char)) :
    (processTextK measure maxW keep textLines).charToUnitMap.length =
      (processTextK measure maxW keep textLines).cleanedText.length ∧
    ∀ v ∈ (processTextK measure maxW keep textLines).charToUnitMap,
      v = -1 ∨ (0 ≤ v ∧ v.toNat <
        (processTextK measure maxW keep textLines).displayUnits.length) := by
  have h0 : MapOk (joinSpace (textLines.map (filterTextKeepLength keep))).length
      ((⟨[], List.replicate (joinSpace (textLines.map (filterTextKeepLength keep))).length (-1), 0⟩ : KState).units.length)
      ((⟨[], List.replicate (joinSpace (textLines.map (filterTextKeepLength keep))).length (-1), 0⟩ : KState).map) := by
    constructor
    · simp
    · intro v hv
      exact Or.inl (List.eq_of_mem_replicate hv)
  have hfold : ∀ (prs : List (List Char × List Char)) (st : KState),
      MapOk (joinSpace (textLines.map (filterTextKeepLength keep))).length
        st.units.length st.map →
      MapOk (joinSpace (textLines.map (filterTextKeepLength keep))).length
        (prs.foldl (kLineStep measure maxW (joinSpace (textLines.map (filterTextKeepLength keep)))) st).units.length
        (prs.foldl (kLineStep measure maxW (joinSpace (textLines.map (filterTextKeepLength keep)))) st).map := by
    intro prs
    induction prs with
    | nil => intro st h; exact h
    | cons p rest ih =>
      intro st h
      rw [List.foldl_cons]
      exact ih _ (kLineStep_mapOk measure maxW _ p h)
  have hres := hfold
    ((textLines.map (filterTextComplete keep)).zip (textLines.map (filterTextKeepLength keep)))
    ⟨[], List.replicate (joinSpace (textLines.map (filterTextKeepLength keep))).length (-1), 0⟩ h0
  exact ⟨hres.1, hres.2⟩

theorem processUnitStep_spanOk (keep : Char → Bool) (ct : List Char) (lp : Nat)
    {st : AlignState} (u : SegUnit) (h : ∀ d ∈ st.units, UnitSpanOk ct d) :
    ∀ d ∈ (processUnitStep keep ct lp st u).units, UnitSpanOk ct d := by
  cases hidx : idxOfFrom ct (cleanText keep u.text) lp with
  | none =>
    simp only [processUnitStep, hidx]
    exact h
  | some p =>
    simp only [processUnitStep, hidx]
    intro d hd
    rcases List.mem_append.mp hd with hd | hd
    · exact h d hd
    · rcases List.mem_singleton.mp hd with rfl
      obtain ⟨_, hslice, _, _⟩ := idxOfFrom_sound hidx
      exact ⟨rfl, hslice⟩

theorem foldl_processUnitStep_spanOk (keep : Char → Bool) (ct : List Char) (lp : Nat) :
    ∀ (us : List SegUnit) (st : AlignState), (∀ d ∈ st.units, UnitSpanOk ct d) →
      ∀ d ∈ (us.foldl (processUnitStep keep ct lp) st).units, UnitSpanOk ct d := by
  intro us
  induction us with
  | nil => intro st h; exact h
  | cons u rest ih =>
    intro st h
    rw [List.foldl_cons]
    exact ih _ (processUnitStep_spanOk keep ct lp u h)

theorem processLineStep_spanOk (measure : List Char → Nat) (maxW : Nat)
    (keep : Char → Bool) (ct : List Char) {st : AlignState}
    (pair : List Char × Option (List Char))
    (h : ∀ d ∈ st.units, UnitSpanOk ct d) :
    ∀ d ∈ (processLineStep measure maxW keep ct st pair).units, UnitSpanOk ct d := by
  obtain ⟨orig, clo⟩ := pair
  cases clo with
  | none =>
    simp only [processLineStep]
    exact h
  | some cl =>
    by_cases hcl : cl.isEmpty = true
    · simp only [processLineStep, hcl, if_pos]
      exact h
    · cases hidx : idxOfFrom ct cl st.cursor with
      | none =>
        simp only [processLineStep, if_neg hcl, hidx]
        exact h
      | some linePos =>
        simp only [processLineStep, if_neg hcl, hidx]
        exact foldl_processUnitStep_spanOk keep ct linePos _ st h

theorem alignGo_spanOk (measure : List Char → Nat) (maxW : Nat)
    (keep : Char → Bool) (ct : List Char) :
    ∀ (pairs : List (List Char × Option (List Char))) (st : AlignState),
      (∀ d ∈ st.units, UnitSpanOk ct d) →
      ∀ d ∈ (alignGo measure maxW keep ct st pairs).units, UnitSpanOk ct d := by
  intro pairs
  induction pairs with
  | nil => intro st h; exact h
  | cons p rest ih =>
    intro st h
    exact ih _ (processLineStep_spanOk measure maxW keep ct p h)

theorem processSubtitleText_spanOk (measure : List Char → Nat) (maxW : Nat)
    (keep : Char → Bool) (rawText : List Char) (mdLines : List (List Char)) :
    ∀ d ∈ (processSubtitleText measure maxW keep rawText mdLines).displayUnits,
      UnitSpanOk (processSubtitleText measure maxW keep rawText mdLines).cleanedText d := by
  exact alignGo_spanOk measure maxW keep (cleanText keep rawText)
    (linePairs keep mdLines) _ (by intro d hd; simp at hd)

theorem processUnitStep_bound (keep : Char → Bool) (ct : List Char)
    {linePos : Nat} {cl : List Char} (st : AlignState) (u : SegUnit)
    (hslice : sliceL ct linePos (linePos + cl.length) = cl)
    (hbound : linePos + cl.length ≤ ct.length)
    (hinf : cleanText keep u.text <:+: cl) :
    ∃ ex, (processUnitStep keep ct linePos st u).units = st.units ++ ex ∧
      (processUnitStep keep ct linePos st u).cursor = st.cursor ∧
      ∀ v ∈ ex, linePos ≤ v.start ∧ v.stop ≤ linePos + cl.length := by
  cases hidx : idxOfFrom ct (cleanText keep u.text) linePos with
  | none =>
    refine ⟨[], by simp [processUnitStep, hidx], by simp [processUnitStep, hidx], by simp⟩
  | some p =>
    obtain ⟨hlen, hsl, hmin, hemp⟩ := idxOfFrom_sound hidx
    have hlp : linePos ≤ ct.length := by omega
    have hminr : min linePos ct.length = linePos := Nat.min_eq_left hlp
    refine ⟨[⟨u.text, cleanText keep u.text, p,
      p + (cleanText keep u.text).length⟩],
      by simp [processUnitStep, hidx], by simp [processUnitStep, hidx], ?_⟩
    intro v hv
    rcases List.mem_singleton.mp hv with rfl
    by_cases hcu : cleanText keep u.text = []
    · have hp : p = linePos := by rw [hemp hcu, hminr]
      refine ⟨?_, ?_⟩
      · show linePos ≤ p
        omega
      · show p + (cleanText keep u.text).length ≤ linePos + cl.length
        rw [hcu]
        simp only [List.length_nil, Nat.add_zero]
        omega
    · obtain ⟨x, y, hxy⟩ := hinf
      have hdl : ct.drop linePos = cl ++ ct.drop (linePos + cl.length) := by
        have := drop_decomp ct (show linePos ≤ linePos + cl.length by omega)
        rw [hslice] at this
        exact this
      have h1 : ct.drop (linePos + x.length) = (ct.drop linePos).drop x.length := by
        rw [List.drop_drop]
      have h2 : (ct.drop linePos).drop x.length =
          cleanText keep u.text ++ (y ++ ct.drop (linePos + cl.length)) := by
        rw [hdl, ← hxy, List.append_assoc, List.append_assoc, List.drop_left]
      have hocc : cleanText keep u.text <+: ct.drop (linePos + x.length) := by
        rw [h1, h2]
        exact ⟨_, rfl⟩
      obtain ⟨p2, hp2, hple⟩ := idxOfFrom_complete hcu
        (show linePos ≤ linePos + x.length by omega) hocc
      rw [hidx] at hp2
      have hpp : p = p2 := Option.some.inj hp2
      have hxyl : x.length + (cleanText keep u.text).length ≤ cl.length := by
        rw [← hxy]
        simp only [List.length_append]
        omega
      refine ⟨?_, ?_⟩
      · show linePos ≤ p
        rw [hminr] at hmin
        exact hmin
      · show p + (cleanText keep u.text).length ≤ linePos + cl.length
        omega

theorem foldl_processUnitStep_bound (keep : Char → Bool) (ct : List Char)
    {linePos : Nat} {cl : List Char}
    (hslice : sliceL ct linePos (linePos + cl.length) = cl)
    (hbound : linePos + cl.length ≤ ct.length) :
    ∀ (us : List SegUnit) (st : AlignState),
      (∀ u ∈ us, cleanText keep u.text <:+: cl) →
      ∃ ex, (us.foldl (processUnitStep keep ct linePos) st).units = st.units ++ ex ∧
        (us.foldl (processUnitStep keep ct linePos) st).cursor = st.cursor ∧
        ∀ v ∈ ex, linePos ≤ v.start ∧ v.stop ≤ linePos + cl.length := by
  intro us
  induction us with
  | nil =>
    intro st _
    exact ⟨[], by simp, rfl, by simp⟩
  | cons u rest ih =>
    intro st hall
    rw [List.foldl_cons]
    obtain ⟨ex1, he1, hc1, hb1⟩ := processUnitStep_bound keep ct st u hslice hbound
      (hall u (List.mem_cons_self u rest))
    obtain ⟨ex2, he2, hc2, hb2⟩ := ih (processUnitStep keep ct linePos st u)
      (fun v hv => hall v (List.mem_cons_of_mem u hv))
    refine ⟨ex1 ++ ex2, ?_, ?_, ?_⟩
    · rw [he2, he1, List.append_assoc]
    · rw [hc2, hc1]
    · intro v hv
      rcases List.mem_append.mp hv with hv | hv
      · exact hb1 v hv
      · exact hb2 v hv

theorem processLineStep_cursorOk (measure : List Char → Nat) (maxW : Nat)
    (keep : Char → Bool) (ct : List Char) (st : AlignState)
    (pair : List Char × Option (List Char))
    (hpair : pair.2 = some (cleanText keep pair.1))
    (h6 : CursorOk ct st) :
    ∃ ex, (processLineStep measure maxW keep ct st pair).units = st.units ++ ex ∧
      CursorOk ct (processLineStep measure maxW keep ct st pair) ∧
      st.cursor ≤ (processLineStep measure maxW keep ct st pair).cursor ∧
      ∀ v ∈ ex, st.cursor ≤ v.start ∧
        v.stop ≤ (processLineStep measure maxW keep ct st pair).cursor := by
  obtain ⟨orig, clo⟩ := pair
  simp only at hpair
  subst hpair
  by_cases hcl : (cleanText keep orig).isEmpty = true
  · simp only [processLineStep, hcl, if_pos]
    exact ⟨[], by simp, h6, le_refl _, by simp⟩
  · cases hidx : idxOfFrom ct (cleanText keep orig) st.cursor with
    | none =>
      simp only [processLineStep, if_neg hcl, hidx]
      exact ⟨[], by simp, h6, le_refl _, by simp⟩
    | some linePos =>
      obtain ⟨hlen, hslice, hmin, _⟩ := idxOfFrom_sound hidx
      have hcur : st.cursor ≤ linePos := by
        rw [Nat.min_eq_left h6.1] at hmin
        exact hmin
      have hinfall : ∀ u ∈ smartSplitText measure maxW orig,
          cleanText keep u.text <:+: cleanText keep orig := by
        intro u hu
        exact cleanText_isInfix keep (smartSplitText_isInfix measure maxW orig u hu)
      obtain ⟨ex, he, hc, hb⟩ := foldl_processUnitStep_bound keep ct hslice hlen
        (smartSplitText measure maxW orig) st hinfall
      refine ⟨ex, ?_, ?_, ?_, ?_⟩
      · simp only [processLineStep, if_neg hcl, hidx]
        exact he
      · constructor
        · simp only [processLineStep, if_neg hcl, hidx]
          exact hlen
        · intro u hu
          simp only [processLineStep, if_neg hcl, hidx] at hu ⊢
          rw [he] at hu
          rcases List.mem_append.mp hu with hu | hu
          · have := h6.2 u hu
            omega
          · exact (hb u hu).2
      · simp only [processLineStep, if_neg hcl, hidx]
        omega
      · intro v hv
        simp only [processLineStep, if_neg hcl, hidx]
        refine ⟨le_trans hcur (hb v hv).1, (hb v hv).2⟩

theorem alignGo_cursorOk (measure : List Char → Nat) (maxW : Nat)
    (keep : Char → Bool) (ct : List Char) :
    ∀ (pairs : List (List Char × Option (List Char))) (st : AlignState),
      (∀ p ∈ pairs, p.2 = some (cleanText keep p.1)) →
      CursorOk ct st →
      ∃ ex, (alignGo measure maxW keep ct st pairs).units = st.units ++ ex ∧
        CursorOk ct (alignGo measure maxW keep ct st pairs) ∧
        st.cursor ≤ (alignGo measure maxW keep ct st pairs).cursor ∧
        ∀ v ∈ ex, st.cursor ≤ v.start ∧
          v.stop ≤ (alignGo measure maxW keep ct st pairs).cursor := by
  intro pairs
  induction pairs with
  | nil =>
    intro st _ h6
    exact ⟨[], by simp [alignGo], h6, le_refl _, by simp⟩
  | cons p rest ih =>
    intro st hall h6
    simp only [alignGo]
    obtain ⟨ex1, he1, h61, hc1, hb1⟩ := processLineStep_cursorOk measure maxW keep ct st p
      (hall p (List.mem_cons_self p rest)) h6
    obtain ⟨ex2, he2, h62, hc2, hb2⟩ := ih (processLineStep measure maxW keep ct st p)
      (fun q hq => hall q (List.mem_cons_of_mem p hq)) h61
    refine ⟨ex1 ++ ex2, ?_, h62, by omega, ?_⟩
    · rw [he2, he1, List.append_assoc]
    · intro v hv
      rcases List.mem_append.mp hv with hv | hv
      · exact ⟨(hb1 v hv).1, by have := (hb1 v hv).2; omega⟩
      · exact ⟨by have := (hb2 v hv).1; omega, (hb2 v hv).2⟩

theorem linePairs_of_no_empty (keep : Char → Bool) (mdLines : List (List Char))
    (h : ∀ l ∈ mdLines, (cleanText keep l).isEmpty = false) :
    linePairs keep mdLines = mdLines.map (fun l => (l, some (cleanText keep l))) := by
  have hfilter : (mdLines.map (cleanText keep)).filter (fun l => !l.isEmpty) =
      mdLines.map (cleanText keep) := by
    apply List.filter_eq_self.mpr
    intro x hx
    obtain ⟨l, hl, rfl⟩ := List.mem_map.mp hx
    simp [h l hl]
  unfold linePairs
  rw [hfilter]
  apply List.ext_getElem?
  intro i
  rw [List.getElem?_map, List.getElem?_enum, List.getElem?_map]
  cases hix : mdLines[i]? with
  | none => simp
  | some l =>
    simp [List.getElem?_map, hix]

theorem alignGo_append (measure : List Char → Nat) (maxW : Nat) (keep : Char → Bool)
    (ct : List Char) :
    ∀ (p1 p2 : List (List Char × Option (List Char))) (st : AlignState),
      alignGo measure maxW keep ct st (p1 ++ p2) =
        alignGo measure maxW keep ct (alignGo measure maxW keep ct st p1) p2 := by
  intro p1
  induction p1 with
  | nil => intro p2 st; rfl
  | cons p rest ih =>
    intro p2 st
    simp only [List.cons_append, alignGo]
    exact ih p2 _

theorem processSubtitleText_prefix_mono (measure : List Char → Nat) (maxW : Nat)
    (keep : Char → Bool) (rawText : List Char) (mdLines : List (List Char)) (n : Nat)
    (hne : ∀ l ∈ mdLines, (cleanText keep l).isEmpty = false) :
    ∃ extra,
      (processSubtitleText measure maxW keep rawText mdLines).displayUnits =
        (processSubtitleText measure maxW keep rawText (mdLines.take n)).displayUnits
          ++ extra ∧
      ∀ u ∈ (processSubtitleText measure maxW keep rawText
          (mdLines.take n)).displayUnits,
        ∀ v ∈ extra, u.stop ≤ v.start := by
  have hLP := linePairs_of_no_empty keep mdLines hne
  have hLPt := linePairs_of_no_empty keep (mdLines.take n)
    (fun l hl => hne l (List.mem_of_mem_take hl))
  have hsplit : mdLines.map (fun l => (l, some (cleanText keep l))) =
      (mdLines.take n).map (fun l => (l, some (cleanText keep l))) ++
      (mdLines.drop n).map (fun l => (l, some (cleanText keep l))) := by
    rw [← List.map_append, List.take_append_drop]
  have hinit : CursorOk (cleanText keep rawText)
      (⟨[], List.replicate (cleanText keep rawText).length (-1), 0⟩ : AlignState) := by
    constructor
    · exact Nat.zero_le _
    · intro u hu
      simp at hu
  obtain ⟨ex1, he1, h61, hc1, hb1⟩ := alignGo_cursorOk measure maxW keep
    (cleanText keep rawText)
    ((mdLines.take n).map (fun l => (l, some (cleanText keep l))))
    ⟨[], List.replicate (cleanText keep rawText).length (-1), 0⟩
    (by
      intro p hp
      obtain ⟨l, _, rfl⟩ := List.mem_map.mp hp
      rfl)
    hinit
  obtain ⟨ex2, he2, h62, hc2, hb2⟩ := alignGo_cursorOk measure maxW keep
    (cleanText keep rawText)
    ((mdLines.drop n).map (fun l => (l, some (cleanText keep l))))
    (alignGo measure maxW keep (cleanText keep rawText)
      ⟨[], List.replicate (cleanText keep rawText).length (-1), 0⟩
      ((mdLines.take n).map (fun l => (l, some (cleanText keep l)))))
    (by
      intro p hp
      obtain ⟨l, _, rfl⟩ := List.mem_map.mp hp
      rfl)
    h61
  refine ⟨ex2, ?_, ?_⟩
  · show (alignGo measure maxW keep (cleanText keep rawText)
        ⟨[], List.replicate (cleanText keep rawText).length (-1), 0⟩
        (linePairs keep mdLines)).units = _
    rw [hLP, hsplit, alignGo_append]
    rw [he2]
    congr 1
    show _ = (alignGo measure maxW keep (cleanText keep rawText)
        ⟨[], List.replicate (cleanText keep rawText).length (-1), 0⟩
        (linePairs keep (mdLines.take n))).units
    rw [hLPt]
  · intro u hu v hv
    have hu' : u ∈ (alignGo measure maxW keep (cleanText keep rawText)
        ⟨[], List.replicate (cleanText keep rawText).length (-1), 0⟩
        ((mdLines.take n).map (fun l => (l, some (cleanText keep l))))).units := by
      have : (processSubtitleText measure maxW keep rawText
          (mdLines.take n)).displayUnits = (alignGo measure maxW keep
          (cleanText keep rawText)
          ⟨[], List.replicate (cleanText keep rawText).length (-1), 0⟩
          ((mdLines.take n).map (fun l => (l, some (cleanText keep l))))).units := by
        show (alignGo measure maxW keep (cleanText keep rawText)
            ⟨[], List.replicate (cleanText keep rawText).length (-1), 0⟩
            (linePairs keep (mdLines.take n))).units = _
        rw [hLPt]
      rw [← this]
      exact hu
    have h1 := h61.2 u hu'
    have h2 := (hb2 v hv).1
    omega

theorem runBoundaries_stay (map : List Int) (units : List DUnit) (u : Int) :
    ∀ (evs : List (List Char × Nat)),
      (∀ e ∈ evs, map[e.2]? = some u) →
      runBoundaries map units u evs = (u, []) := by
  intro evs
  induction evs with
  | nil => intro _; rfl
  | cons e rest ih =>
    intro hall
    have hcell := hall e (List.mem_cons_self e rest)
    have hlt : e.2 < map.length := List.getElem?_eq_some_iff.mp hcell |>.1
    have hone : onBoundary map units u e.1 e.2 = (u, none) := by
      unfold onBoundary
      by_cases hk : e.1 ≠ wordKind ∧ e.1 ≠ sentenceKind
      · rw [if_pos hk]
      · rw [if_neg hk, dif_pos hlt]
        have hval : map[e.2] = u := by
          have := List.getElem?_eq_getElem hlt
          rw [hcell] at this
          exact (Option.some.inj this).symm
        rw [if_neg]
        intro hc
        exact hc.2 hval
    simp only [runBoundaries, hone]
    rw [ih (fun e' he' => hall e' (List.mem_cons_of_mem e he'))]
    simp

theorem runBoundaries_once (map : List Int) (units : List DUnit) (cur v : Int)
    (d : DUnit) :
    ∀ (evs : List (List Char × Nat)), evs ≠ [] →
      (∀ e ∈ evs, (e.1 = wordKind ∨ e.1 = sentenceKind) ∧ map[e.2]? = some v) →
      v ≠ -1 → cur ≠ v → jsIndex units v = some d →
      (runBoundaries map units cur evs).2 = [d] := by
  intro evs
  cases evs with
  | nil => intro hc; exact absurd rfl hc
  | cons e rest =>
    intro _ hall hv hcur hd
    obtain ⟨hk, hcell⟩ := hall e (List.mem_cons_self e rest)
    have hlt : e.2 < map.length := List.getElem?_eq_some_iff.mp hcell |>.1
    have hval : map[e.2] = v := by
      have := List.getElem?_eq_getElem hlt
      rw [hcell] at this
      exact (Option.some.inj this).symm
    have hone : onBoundary map units cur e.1 e.2 = (v, some d) := by
      unfold onBoundary
      rw [if_neg (by rcases hk with h | h <;> simp [h]), dif_pos hlt]
      rw [if_pos ⟨by rw [hval]; exact hv, by rw [hval]; exact fun hc => hcur hc.symm⟩]
      rw [hval, hd]
    simp only [runBoundaries, hone]
    rw [runBoundaries_stay map units v rest
      (fun e' he' => (hall e' (List.mem_cons_of_mem e he')).2)]
    simp

theorem getCurrentUnit_none_oob {charIndex : Nat} {map : List Int} (units : List DUnit)
    (h : map.length ≤ charIndex) : getCurrentUnit charIndex map units = none := by
  unfold getCurrentUnit
  rw [dif_neg (by omega)]

theorem getCurrentUnit_cases (charIndex : Nat) (map : List Int) (units : List DUnit)
    (v : Int) (hcell : map[charIndex]? = some v) :
    (v = -1 → getCurrentUnit charIndex map units = none) ∧
    (¬(0 ≤ v ∧ v.toNat < units.length) → getCurrentUnit charIndex map units = none) ∧
    (0 ≤ v → v.toNat < units.length → v ≠ -1 →
      getCurrentUnit charIndex map units = units[v.toNat]? ∧
      (getCurrentUnit charIndex map units).isSome = true) := by
  have hlt : charIndex < map.length := List.getElem?_eq_some_iff.mp hcell |>.1
  have hval : map[charIndex] = v := by
    have := List.getElem?_eq_getElem hlt
    rw [hcell] at this
    exact (Option.some.inj this).symm
  unfold getCurrentUnit
  rw [dif_pos hlt]
  refine ⟨?_, ?_, ?_⟩
  · intro hv
    rw [if_neg]
    intro hc
    rw [hval] at hc
    exact hc.1 hv
  · intro hnv
    by_cases hcond : map[charIndex] ≠ -1 ∧ map[charIndex] < (units.length : Int)
    · rw [if_pos hcond]
      unfold jsIndex
      rw [hval]
      by_cases hneg : v < 0
      · rw [if_pos hneg]
      · rw [if_neg hneg]
        have h0 : 0 ≤ v := by omega
        have : ¬ v.toNat < units.length := fun hc => hnv ⟨h0, hc⟩
        exact List.getElem?_eq_none (by omega)
    · rw [if_neg hcond]
  · intro h0 hlen hne
    have hcond : map[charIndex] ≠ -1 ∧ map[charIndex] < (units.length : Int) := by
      rw [hval]
      refine ⟨hne, ?_⟩
      omega
    rw [if_pos hcond]
    unfold jsIndex
    rw [hval, if_neg (by omega)]
    refine ⟨rfl, ?_⟩
    rw [List.getElem?_eq_getElem hlen]
    rfl

/-- C1: the claim states that `filterTextKeepLength` is length-preserving on
an input made of a link-like substring followed by prose (URL region turned
into an equal-length run of spaces, prose unchanged, total length equal).
The code contradicts this (and its own doc comment "保持文本长度"/keep text
length): the final `\s+ → ' '` normalization collapses the freshly created
space run, so on the failing input `https://a.com hi` (length 16) the
function returns `" hi"` (length 3) instead of a 16-character string.  This
theorem evaluates the model at that failing input. -/

theorem claim_C1 :
    filterTextKeepLength keepEx ("https://a.com hi".toList) = (" hi".toList) ∧
    ("https://a.com hi".toList).length = 16 ∧
    (filterTextKeepLength keepEx ("https://a.com hi".toList)).length = 3 := by
  decide

/-- C2 (counterexample): on the line `a。。。b。` with the width oracle
`List.length` and budget 2, the sentence tier matches `a。` and `b。` but the
two consecutive sentence marks between the matches can start no match and are
silently skipped, so the emitted units concatenate to `a。b。`: two characters
of the line are lost, refuting exact reconstruction. -/
theorem claim_C2_counterexample :
    smartSplitText List.length 2 ("a。。。b。".toList) =
      [⟨"a。".toList, 0, 2⟩, ⟨"b。".toList, 4, 6⟩] ∧
    joinTexts (smartSplitText List.length 2 ("a。。。b。".toList)) ≠
      ("a。。。b。".toList) := by
  decide

/-- C2 (amended): the concatenation of the units returned by the segmenter is
a sublist of the original line — the units are pairwise disjoint substrings
of the line taken left to right, so no character is ever duplicated — but
characters lying between regex matches (runs of consecutive sentence or
clause terminators past the first) and whitespace-only remainders are
dropped, so the concatenation need not reconstruct the line exactly. -/
theorem claim_C2 (measure : List Char → Nat) (maxW : Nat) (t : List Char) :
    (joinTexts (smartSplitText measure maxW t)).Sublist t :=
  smartSplitText_join_sublist measure maxW t

/-- C3: for every raw text and line list, both aligner variants
(`SmartSubtitle.processSubtitleText` and the `part_000`
`SubtitleReader.processText`) return a char-to-unit map exactly as long as
the cleaned spoken-form string they return, and every cell is either the
sentinel `-1` or a valid index into the returned display-unit array. -/
theorem claim_C3 (measure : List Char → Nat) (maxW : Nat) (keep : Char → Bool)
    (rawText : List Char) (mdLines textLines : List (List Char)) :
    ((processSubtitleText measure maxW keep rawText mdLines).charToUnitMap.length =
        (processSubtitleText measure maxW keep rawText mdLines).cleanedText.length ∧
      ∀ v ∈ (processSubtitleText measure maxW keep rawText mdLines).charToUnitMap,
        v = -1 ∨ (0 ≤ v ∧ v.toNat <
          (processSubtitleText measure maxW keep rawText mdLines).displayUnits.length)) ∧
    ((processTextK measure maxW keep textLines).charToUnitMap.length =
        (processTextK measure maxW keep textLines).cleanedText.length ∧
      ∀ v ∈ (processTextK measure maxW keep textLines).charToUnitMap,
        v = -1 ∨ (0 ≤ v ∧ v.toNat <
          (processTextK measure maxW keep textLines).displayUnits.length)) :=
  ⟨processSubtitleText_mapOk measure maxW keep rawText mdLines,
   processTextK_mapOk measure maxW keep textLines⟩

/-- Witness for C3 at concrete inputs: the invariant instantiated on an
actual run of each aligner. -/
theorem claim_C3_witness :
    ((processSubtitleText List.length 3 keepEx ("aa。aa。".toList)
        ["aa。aa。".toList]).charToUnitMap.length =
      (processSubtitleText List.length 3 keepEx ("aa。aa。".toList)
        ["aa。aa。".toList]).cleanedText.length) ∧
    ((1 : Int) = -1 ∨ (0 ≤ (1 : Int) ∧ (1 : Int).toNat <
      (processSubtitleText List.length 3 keepEx ("aa。aa。".toList)
        ["aa。aa。".toList]).displayUnits.length)) ∧
    ((0 : Int) = -1 ∨ (0 ≤ (0 : Int) ∧ (0 : Int).toNat <
      (processTextK List.length 10 keepEx ["done.".toList]).displayUnits.length)) :=
  ⟨(claim_C3 List.length 3 keepEx ("aa。aa。".toList) ["aa。aa。".toList] []).1.1,
   (claim_C3 List.length 3 keepEx ("aa。aa。".toList) ["aa。aa。".toList] []).1.2
      1 (by decide),
   (claim_C3 List.length 10 keepEx [] [] ["done.".toList]).2.2 0 (by decide)⟩

/-- C5: every unit emitted by the segmenter fits the width budget, except
possibly a single-character unit (an unsplittable character wider than the
budget is emitted alone); this holds for every input line, budget, and width
oracle. -/
theorem claim_C5 (measure : List Char → Nat) (maxW : Nat) (t : List Char) :
    ∀ u ∈ smartSplitText measure maxW t,
      measure u.text ≤ maxW ∨ u.text.length = 1 :=
  smartSplitText_width measure maxW t

/-- Witness for C5: the width bound instantiated on a concrete hard-split
run. -/
theorem claim_C5_witness :
    List.length (SegUnit.text ⟨"ab".toList, 0, 2⟩) ≤ 2 ∨
      (SegUnit.text ⟨"ab".toList, 0, 2⟩).length = 1 :=
  claim_C5 List.length 2 ("abc".toList) ⟨"ab".toList, 0, 2⟩ (by decide)

/-- C8: segmentation is a pure function of the line, the width budget and the
width oracle: two calls with equal arguments (the oracles need only agree
pointwise) return identical unit sequences.  In the source the only state
`smartSplitText` reads is the canvas-backed width oracle and the configured
budget, both captured here as explicit arguments. -/
theorem claim_C8 (measure measure' : List Char → Nat) (maxW maxW' : Nat)
    (t t' : List Char) (hm : ∀ s, measure s = measure' s) (hw : maxW = maxW')
    (ht : t = t') :
    smartSplitText measure maxW t = smartSplitText measure' maxW' t' := by
  subst hw
  subst ht
  have : measure = measure' := funext hm
  subst this
  rfl

/-- Witness for C8 at a concrete input. -/
theorem claim_C8_witness :
    smartSplitText List.length 2 ("abc".toList) =
      smartSplitText (fun s => s.length) 2 ("abc".toList) :=
  claim_C8 List.length (fun s => s.length) 2 2 ("abc".toList) ("abc".toList)
    (fun _ => rfl) rfl rfl

/-- C9: `forceSplitText` terminates on every input and width oracle (it is a
total function of this development), and the scan makes forward progress:
every emitted unit is non-empty and the units exactly exhaust the input —
their concatenation is the input itself, so each unit consumes at least one
character. -/
theorem claim_C9 (measure : List Char → Nat) (maxW : Nat) (t : List Char)
    (basePos : Nat) :
    joinTexts (forceSplitText measure maxW t basePos) = t ∧
    ∀ u ∈ forceSplitText measure maxW t basePos, u.text ≠ [] :=
  ⟨forceSplitText_join measure maxW t basePos,
   forceSplitText_ne_nil measure maxW t basePos⟩

/-- Witness for C9 under the pathological oracle that reports every string —
even a single character — as exceeding the budget: the scan still terminates,
splitting into the two single-character units. -/
theorem claim_C9_witness :
    joinTexts (forceSplitText (fun _ => 1) 0 ("ab".toList) 5) = ("ab".toList) ∧
    (SegUnit.text ⟨"a".toList, 5, 6⟩) ≠ [] :=
  ⟨(claim_C9 (fun _ => 1) 0 ("ab".toList) 5).1,
   (claim_C9 (fun _ => 1) 0 ("ab".toList) 5).2 ⟨"a".toList, 5, 6⟩ (by decide)⟩

/-- C4: the `onboundary` handler ignores events whose kind is neither `word`
nor `sentence`; a boundary event whose offset resolves to the sentinel leaves
the current unit unchanged and emits nothing; one resolving to the current
unit emits nothing; one resolving to a different existing unit updates the
current unit and emits exactly one "show unit" effect carrying that unit;
and a run of repeated events all resolving to the same unit emits exactly
one effect in total. -/
theorem claim_C4 (map : List Int) (units : List DUnit) (cur : Int)
    (name : List Char) (ci : Nat) :
    (name ≠ wordKind ∧ name ≠ sentenceKind →
      onBoundary map units cur name ci = (cur, none)) ∧
    ((name = wordKind ∨ name = sentenceKind) → map[ci]? = some (-1) →
      onBoundary map units cur name ci = (cur, none)) ∧
    ((name = wordKind ∨ name = sentenceKind) → map[ci]? = some cur →
      onBoundary map units cur name ci = (cur, none)) ∧
    (∀ v d, (name = wordKind ∨ name = sentenceKind) → map[ci]? = some v →
      v ≠ -1 → v ≠ cur → jsIndex units v = some d →
      onBoundary map units cur name ci = (v, some d)) ∧
    (∀ (evs : List (List Char × Nat)) (v : Int) (d : DUnit), evs ≠ [] →
      (∀ e ∈ evs, (e.1 = wordKind ∨ e.1 = sentenceKind) ∧ map[e.2]? = some v) →
      v ≠ -1 → cur ≠ v → jsIndex units v = some d →
      (runBoundaries map units cur evs).2 = [d]) := by
  refine ⟨?_, ?_, ?_, ?_, ?_⟩
  · intro hk
    unfold onBoundary
    rw [if_pos hk]
  · intro hbk hcell
    have hlt : ci < map.length := List.getElem?_eq_some_iff.mp hcell |>.1
    have hval : map[ci] = -1 := by
      have := List.getElem?_eq_getElem hlt
      rw [hcell] at this
      exact (Option.some.inj this).symm
    unfold onBoundary
    rw [if_neg (by rcases hbk with h | h <;> simp [h]), dif_pos hlt, if_neg]
    intro hc
    exact hc.1 hval
  · intro hbk hcell
    have hlt : ci < map.length := List.getElem?_eq_some_iff.mp hcell |>.1
    have hval : map[ci] = cur := by
      have := List.getElem?_eq_getElem hlt
      rw [hcell] at this
      exact (Option.some.inj this).symm
    unfold onBoundary
    rw [if_neg (by rcases hbk with h | h <;> simp [h]), dif_pos hlt, if_neg]
    intro hc
    exact hc.2 hval
  · intro v d hbk hcell hv hvc hd
    have hlt : ci < map.length := List.getElem?_eq_some_iff.mp hcell |>.1
    have hval : map[ci] = v := by
      have := List.getElem?_eq_getElem hlt
      rw [hcell] at this
      exact (Option.some.inj this).symm
    unfold onBoundary
    rw [if_neg (by rcases hbk with h | h <;> simp [h]), dif_pos hlt,
      if_pos ⟨by rw [hval]; exact hv, by rw [hval]; exact hvc⟩, hval, hd]
  · intro evs v d hne hall hv hcur hd
    exact runBoundaries_once map units cur v d evs hne hall hv hcur hd

/-- Witness for C4: three consecutive boundary events all landing in unit 0
of a concrete session, starting outside it, produce exactly one "show unit"
effect. -/
theorem claim_C4_witness :
    (runBoundaries [0, 0, -1] [⟨"a".toList, "a".toList, 0, 1⟩] (-1)
      [(wordKind, 0), (sentenceKind, 1), (wordKind, 0)]).2 =
      [⟨"a".toList, "a".toList, 0, 1⟩] :=
  (claim_C4 [0, 0, -1] [⟨"a".toList, "a".toList, 0, 1⟩] (-1) wordKind 0).2.2.2.2
    [(wordKind, 0), (sentenceKind, 1), (wordKind, 0)] 0
    ⟨"a".toList, "a".toList, 0, 1⟩ (by decide) (by decide) (by decide)
    (by decide) (by decide)

/-- C6 (counterexample): the document `Q / 😀 / Yes. / Yes.` contains the
same line `Yes.` twice.  The emoji-only second line sanitizes to the empty
string and is dropped from the *filtered* cleaned-lines array, so from then
on original lines are paired with the wrong cleaned text.  In the resulting
run the spoken form is `QYes.Yes.`, whose first `Yes.` occurrence starts at
index 1 — yet the only unit with text `Yes.` (coming from the *first*
`Yes.` line) claims span \[5, 9), the second occurrence's region, because the
mis-paired emoji line already consumed the first matched span; the second
`Yes.` line produces no unit at all.  The first occurrence's units are thus
not mapped to the first matched span, refuting the claim. -/
theorem claim_C6_counterexample :
    (processSubtitleText List.length 10 keepEx ("Q\n😀\nYes.\nYes.".toList)
      ["Q".toList, "😀".toList, "Yes.".toList, "Yes.".toList]).displayUnits =
      [⟨"Q".toList, "Q".toList, 0, 1⟩, ⟨"😀".toList, [], 1, 1⟩,
       ⟨"Yes.".toList, "Yes.".toList, 5, 9⟩] ∧
    (processSubtitleText List.length 10 keepEx ("Q\n😀\nYes.\nYes.".toList)
      ["Q".toList, "😀".toList, "Yes.".toList, "Yes.".toList]).cleanedText =
      ("QYes.Yes.".toList) ∧
    idxOfFrom ("QYes.Yes.".toList) ("Yes.".toList) 0 = some 1 := by
  decide

/-- C6 (amended): provided no extracted line sanitizes to the empty string
(so the filtered cleaned-lines array stays aligned with the raw lines — the
counterexample shows the claim fails without this proviso), the aligner's
line-level cursor only advances and every unit of an earlier line ends at or
before the start of every unit of a later line: the spans mapped for the two
occurrences of a repeated line can never overlap, and the second occurrence
is searched only after the first occurrence's matched span. -/
theorem claim_C6 (measure : List Char → Nat) (maxW : Nat) (keep : Char → Bool)
    (rawText : List Char) (mdLines : List (List Char)) (n : Nat)
    (hne : ∀ l ∈ mdLines, (cleanText keep l).isEmpty = false) :
    ∃ extra,
      (processSubtitleText measure maxW keep rawText mdLines).displayUnits =
        (processSubtitleText measure maxW keep rawText (mdLines.take n)).displayUnits
          ++ extra ∧
      ∀ u ∈ (processSubtitleText measure maxW keep rawText
          (mdLines.take n)).displayUnits,
        ∀ v ∈ extra, u.stop ≤ v.start :=
  processSubtitleText_prefix_mono measure maxW keep rawText mdLines n hne

/-- Witness for C6: the prefix decomposition on a concrete document with two
identical `Yes.` lines, split after the first line. -/
theorem claim_C6_witness :
    ∃ extra,
      (processSubtitleText List.length 10 keepEx ("Yes.\nYes.".toList)
        ["Yes.".toList, "Yes.".toList]).displayUnits =
        (processSubtitleText List.length 10 keepEx ("Yes.\nYes.".toList)
          (["Yes.".toList, "Yes.".toList].take 1)).displayUnits ++ extra ∧
      ∀ u ∈ (processSubtitleText List.length 10 keepEx ("Yes.\nYes.".toList)
          (["Yes.".toList, "Yes.".toList].take 1)).displayUnits,
        ∀ v ∈ extra, u.stop ≤ v.start :=
  claim_C6 List.length 10 keepEx ("Yes.\nYes.".toList)
    ["Yes.".toList, "Yes.".toList] 1 (by decide)

/-- C7 (counterexample): the line `aa。aa。` (budget 3, oracle `List.length`)
segments into two identical units `aa。`.  Each unit's span is found by
`indexOf` restarting at the line's match position, not after the previous
unit, so both units claim the same span \[0, 3): the second unit's sub-span
neither follows the first's nor is disjoint from it, refuting the claimed
contiguous in-order distribution. -/
theorem claim_C7_counterexample :
    (processSubtitleText List.length 3 keepEx ("aa。aa。".toList)
      ["aa。aa。".toList]).displayUnits =
      [⟨"aa。".toList, "aa。".toList, 0, 3⟩,
       ⟨"aa。".toList, "aa。".toList, 0, 3⟩] := by
  decide

/-- C7 (amended): every display unit recorded by the aligner claims the span
of the first occurrence of its own sanitized text at or after its line's
match position: the span's length equals the unit's sanitized-text length and
the spoken form restricted to the span reproduces that text — but the spans
of one line's units are not necessarily contiguous or disjoint (identical
units claim identical spans, as the counterexample shows). -/
theorem claim_C7 (measure : List Char → Nat) (maxW : Nat) (keep : Char → Bool)
    (rawText : List Char) (mdLines : List (List Char)) :
    ∀ u ∈ (processSubtitleText measure maxW keep rawText mdLines).displayUnits,
      u.stop = u.start + u.cleanedText.length ∧
      sliceL (processSubtitleText measure maxW keep rawText mdLines).cleanedText
        u.start u.stop = u.cleanedText :=
  fun u hu => processSubtitleText_spanOk measure maxW keep rawText mdLines u hu

/-- Witness for C7 on a concrete aligner run. -/
theorem claim_C7_witness :
    (DUnit.stop ⟨"aa。".toList, "aa。".toList, 0, 3⟩ =
      DUnit.start ⟨"aa。".toList, "aa。".toList, 0, 3⟩ +
        (DUnit.cleanedText ⟨"aa。".toList, "aa。".toList, 0, 3⟩).length) ∧
    sliceL (processSubtitleText List.length 3 keepEx ("aa。aa。".toList)
        ["aa。aa。".toList]).cleanedText 0 3 = ("aa。".toList) :=
  claim_C7 List.length 3 keepEx ("aa。aa。".toList) ["aa。aa。".toList]
    ⟨"aa。".toList, "aa。".toList, 0, 3⟩ (by decide)

/-- C10: `getCurrentUnit` returns `none` (JS `null`/`undefined`) whenever the
offset is beyond the map, the cell holds the sentinel `-1`, or the cell's
value is not a valid index into the unit array (negative values other than
`-1` fall through JS's `displayUnits[unitIndex]` to `undefined`, modelled as
`none`); otherwise it returns the display unit at that index.  It is a total
function — it never throws. -/
theorem claim_C10 (charIndex : Nat) (map : List Int) (units : List DUnit) :
    (map.length ≤ charIndex → getCurrentUnit charIndex map units = none) ∧
    (∀ v, map[charIndex]? = some v → v = -1 →
      getCurrentUnit charIndex map units = none) ∧
    (∀ v, map[charIndex]? = some v → ¬(0 ≤ v ∧ v.toNat < units.length) →
      getCurrentUnit charIndex map units = none) ∧
    (∀ v, map[charIndex]? = some v → 0 ≤ v → v.toNat < units.length →
      getCurrentUnit charIndex map units = units[v.toNat]? ∧
      (getCurrentUnit charIndex map units).isSome = true) := by
  refine ⟨getCurrentUnit_none_oob units, ?_, ?_, ?_⟩
  · intro v hcell hv
    exact (getCurrentUnit_cases charIndex map units v hcell).1 hv
  · intro v hcell hnv
    exact (getCurrentUnit_cases charIndex map units v hcell).2.1 hnv
  · intro v hcell h0 hl
    exact (getCurrentUnit_cases charIndex map units v hcell).2.2 h0 hl (by omega)

/-- Witness for C10 on a concrete session: a valid cell yields the unit, in
particular the result is `some`. -/
theorem claim_C10_witness :
    getCurrentUnit 1 [-1, 0] [⟨"a".toList, "a".toList, 0, 1⟩] =
      [⟨"a".toList, "a".toList, 0, 1⟩][(0 : Int).toNat]? ∧
    (getCurrentUnit 1 [-1, 0] [⟨"a".toList, "a".toList, 0, 1⟩]).isSome = true :=
  (claim_C10 1 [-1, 0] [⟨"a".toList, "a".toList, 0, 1⟩]).2.2.2 0 (by decide)
    (by decide) (by decide)
